import Mathlib

/-!
Shallow embedding of the debt-planner simulation engine
(`runSimulation` and its helpers in `src/script.js`).

Modelling conventions:
* Money values are rationals (`ℚ`); the source uses JS numbers and the
  claims are about the algorithmic structure, with the epsilons
  (`0.5`, `1`, `5`) modelled exactly.
* A calendar date is a record `⟨year, month, day⟩` with a 0-based month,
  as in the JS `Date` values the engine builds.  JS compares `Date`s by
  their timestamp; for the normalized dates the engine constructs this
  order coincides with the lexicographic order on (year, month, day),
  which we realize through the numeric key `year*10000 + month*100 + day`.
* JS `Array.prototype.sort` is a stable sort driven by a comparator;
  it is modelled by the stable `List.insertionSort` with the relation
  `cmp a b ≤ 0` (stable sorting under a total preorder has a unique
  result, so any stable sort is extensionally the JS one).
* Mutable arrays of records are modelled by lists threaded through the
  phase functions; records mutated through references are updated by
  their position (index) in the owning list.
* Dead reporting structures (`rowDebtData`, `cardHistories`,
  `minDetails`, rendering) that feed no computation used by the claims
  are omitted; the per-period row keeps the observables the claims
  mention (`income`, `expenses`, `initialCash`, paid totals, the
  strategy/saving logs, `endBalance`, `pocket`, and the indices of the
  cash events included in the period, mirroring `eventLog`).
-/

namespace DebtPlanner

/-- A calendar date as the engine handles it: `month` is 0-based,
mirroring the JS `Date` API. -/
structure Ymd where
  year : Nat
  month : Nat
  day : Nat
deriving DecidableEq, Repr

/-- Numeric comparison key for dates; for dates with `month ≤ 11` and
`day ≤ 99` it is monotone in the order JS `Date` comparison uses. -/
def Ymd.key (d : Ymd) : Nat := d.year * 10000 + d.month * 100 + d.day

/-- A date produced by the engine is always normalized. -/
def ValidYmd (d : Ymd) : Prop := d.month ≤ 11 ∧ 1 ≤ d.day ∧ d.day ≤ 31

instance : DecidablePred ValidYmd := fun _ => by unfold ValidYmd; infer_instance

def isLeapYear (y : Nat) : Bool := y % 4 == 0 && (y % 100 != 0 || y % 400 == 0)

/-- Number of days of month `m` (0-based) in year `y`; what
`new Date(y, m + 1, 0).getDate()` computes for `m ≤ 11`. -/
def daysInMonth (y m : Nat) : Nat :=
  match m with
  | 0 => 31
  | 1 => if isLeapYear y then 29 else 28
  | 2 => 31
  | 3 => 30
  | 4 => 31
  | 5 => 30
  | 6 => 31
  | 7 => 31
  | 8 => 30
  | 9 => 31
  | 10 => 30
  | _ => 31

/-- `makeDueDate(year, monthIndex0, dueDay)`: the desired day clamped to
the last day of the month. -/
def makeDueDate (year monthIndex0 dueDay : Nat) : Ymd :=
  ⟨year, monthIndex0, min dueDay (daysInMonth year monthIndex0)⟩

/-- Advancing `(year, month)` by one month with the year rollover the
source performs by hand (`if (m > 11) { m = 0; y++; }`). -/
def succMonth (y m : Nat) : Nat × Nat :=
  if m + 1 > 11 then (y + 1, 0) else (y, m + 1)

/-- A debt as the engine consumes it after `normalizeState`. -/
structure Debt where
  id : Nat
  balance : ℚ
  rate : ℚ
  creditLimit : Option ℚ
  monthlyMin : ℚ
  dueDay : Option Int
deriving DecidableEq, Repr

/-- `getDueDayOrDefault`: the user-entered due day when positive
(capped at 31), else the default 25. -/
def getDueDayOrDefault (d : Debt) : Nat :=
  match d.dueDay with
  | some raw => if 0 < raw then min raw.toNat 31 else 25
  | none => 25

/-- `getFirstDueDate`: the first due date on or after the start date. -/
def getFirstDueDate (simStartDate : Ymd) (debt : Debt) : Ymd :=
  let dueDay := getDueDayOrDefault debt
  let candidate := makeDueDate simStartDate.year simStartDate.month dueDay
  if simStartDate.key ≤ candidate.key then candidate
  else
    let ym := succMonth simStartDate.year simStartDate.month
    makeDueDate ym.1 ym.2 dueDay

/-- Result of `computeBanxicoMonthlyComponents` (only the fields the
engine reads downstream). -/
structure BanxicoComponents where
  monthlyInterest : ℚ
  monthlyIVA : ℚ
  optionA : ℚ
  optionB : ℚ
  baseMin : ℚ
deriving DecidableEq, Repr

/-- `computeBanxicoMonthlyComponents(prevBalance, annualRate, creditLimit)`:
the regulatory-floor approximation for one month. -/
def computeBanxicoMonthlyComponents (prevBalance annualRate : ℚ)
    (creditLimit : Option ℚ) : BanxicoComponents :=
  if prevBalance ≤ 0 ∨ annualRate ≤ 0 then ⟨0, 0, 0, 0, 0⟩
  else
    let monthlyInterest := (prevBalance * (annualRate / 100)) / 12
    let monthlyIVA := monthlyInterest * (16 / 100)
    let base1p5 := (15 / 1000) * prevBalance
    let optionA := base1p5 + monthlyInterest + monthlyIVA
    let optionB :=
      match creditLimit with
      | some cl => if 0 < cl then (125 / 10000) * cl else 0
      | none => 0
    let baseMin0 := max optionA optionB
    let maxPossible := prevBalance + monthlyInterest + monthlyIVA
    let baseMin := if maxPossible < baseMin0 then maxPossible else baseMin0
    ⟨monthlyInterest, monthlyIVA, optionA, optionB, baseMin⟩

/-- The binding monthly minimum used throughout the engine:
`userMin > 0 ? Math.max(userMin, baseMin) : baseMin`. -/
def bindingMonthlyMin (userMin baseMin : ℚ) : ℚ :=
  if 0 < userMin then max userMin baseMin else baseMin

/-- One entry of a debt's obligation queue. -/
structure Obligation where
  dueDate : Ymd
  amountRemaining : ℚ
  monthlyMin : ℚ
  banxicoBaseMin : ℚ
deriving DecidableEq, Repr

/-- A savings goal; `saved` is the engine's mutable running total,
initialized from `startingSaved`. -/
structure Goal where
  id : Nat
  targetAmount : ℚ
  startingSaved : ℚ
  saved : ℚ
  priority : Int
deriving DecidableEq, Repr

/-- A one-off cash event.  `date` is the already-parsed calendar date
(0-based month, as `dateFromYMD` yields); `isIncome` reflects the
normalized `type` field. -/
structure CashEvent where
  date : Ymd
  amount : ℚ
  isIncome : Bool
deriving DecidableEq, Repr

/-- The input snapshot `runSimulation` reads from `state`. -/
structure SimInput where
  startDate : Ymd
  grossIncome : ℚ
  deductions : List ℚ
  fixedExpenses : List ℚ
  discretionary : ℚ
  strategy : String
  debts : List Debt
  goals : List Goal
  events : List CashEvent
deriving Repr

/-- The per-debt obligation queues, keyed by debt id
(`minObligations` in the source, a JS object). -/
abbrev ObsMap := List (Nat × List Obligation)

def lookupObs (m : ObsMap) (id : Nat) : Option (List Obligation) :=
  (List.find? (fun p => p.1 == id) m).map (fun p => p.2)

def updateObs (m : ObsMap) (id : Nat) (obs : List Obligation) : ObsMap :=
  List.map (fun p => if p.1 == id then (id, obs) else p) m

/-- JS object-key assignment `m[id] = obs`: replace the value when the
key is present, append the key otherwise. -/
def upsertObs (m : ObsMap) (id : Nat) (obs : List Obligation) : ObsMap :=
  if (List.find? (fun p => p.1 == id) m).isSome then updateObs m id obs
  else m ++ [(id, obs)]

/-- Seeding of the obligation queues: one obligation per debt with
balance above the 0.5 epsilon, due on the first due date on or after
the start date, with the binding minimum from the initial balance. -/
def seedObligations (simStartDate : Ymd) (debts : List Debt) : ObsMap :=
  debts.foldl
    (fun m debt =>
      if debt.balance ≤ 1/2 then m
      else
        let banxico := computeBanxicoMonthlyComponents debt.balance debt.rate
          debt.creditLimit
        let monthlyMin := bindingMonthlyMin debt.monthlyMin banxico.baseMin
        let firstDueDate := getFirstDueDate simStartDate debt
        upsertObs m debt.id
          [⟨firstDueDate, monthlyMin, monthlyMin, banxico.baseMin⟩])
    []

/-- One row of `simulationResults` (the observables the claims use).
`strategyDetails` and `savingDetails` log `(position, amount)` pairs in
payment order, positions indexing `debts` resp. `goals`;
`includedEvents` lists the positions of the cash events the period
absorbed, mirroring `eventLog`. -/
structure PeriodRow where
  id : Nat
  periodEnd : Ymd
  income : ℚ
  expenses : ℚ
  initialCash : ℚ
  paidMins : ℚ
  strategyDetails : List (Nat × ℚ)
  savingDetails : List (Nat × ℚ)
  includedEvents : List Nat
  endBalance : ℚ
  pocket : ℚ
deriving DecidableEq, Repr

/-- The mutable state of one simulation run. -/
structure SimState where
  debts : List Debt
  goals : List Goal
  minObligations : ObsMap
  currentDate : Ymd
  prevPeriodEnd : Option Ymd
  iteration : Nat
  totalInterestPaid : ℚ
  debtRemaining : ℚ
  goalRemaining : ℚ
  carryOver : ℚ
  debtFreedomIndex : Option Nat
  results : List PeriodRow
deriving DecidableEq, Repr

/-- Whether a cash event falls in the current period's window:
`(prevPeriodEnd, periodEnd]`, or `[simStartDate, periodEnd]` for the
first period. -/
def eventIncluded (simStartDate : Ymd) (prevPeriodEnd : Option Ymd)
    (periodEnd : Ymd) (ev : CashEvent) : Bool :=
  match prevPeriodEnd with
  | some p => decide (p.key < ev.date.key) && decide (ev.date.key ≤ periodEnd.key)
  | none => decide (simStartDate.key ≤ ev.date.key) &&
      decide (ev.date.key ≤ periodEnd.key)

/-- Folding the cash events into the period's income/expense totals,
recording the positions of the included events (the `eventLog`). -/
def gatherEvents (simStartDate : Ymd) (prevPeriodEnd : Option Ymd)
    (periodEnd : Ymd) (events : List CashEvent) (baseIncome baseExpense : ℚ) :
    ℚ × ℚ × List Nat :=
  (events.enum).foldl
    (fun acc p =>
      if eventIncluded simStartDate prevPeriodEnd periodEnd p.2 then
        if p.2.isIncome then (acc.1 + p.2.amount, acc.2.1, acc.2.2 ++ [p.1])
        else (acc.1, acc.2.1 + p.2.amount, acc.2.2 ++ [p.1])
      else acc)
    (baseIncome, baseExpense, [])

/-- Spec-side restatement of the event fold: the positions of the
events the window `(prevPeriodEnd, periodEnd]` (resp.
`[simStartDate, periodEnd]`) contains, in event-list order. -/
def specIncludedIdx (simStartDate : Ymd) (prevPeriodEnd : Option Ymd)
    (periodEnd : Ymd) (events : List CashEvent) : List Nat :=
  ((events.enum).filter
    (fun q => eventIncluded simStartDate prevPeriodEnd periodEnd q.2)).map
    Prod.fst

/-- Spec-side restatement: the total amount of the included
income-type events. -/
def specEventIncome (simStartDate : Ymd) (prevPeriodEnd : Option Ymd)
    (periodEnd : Ymd) (events : List CashEvent) : ℚ :=
  ((events.filter
    (fun ev => eventIncluded simStartDate prevPeriodEnd periodEnd ev &&
      ev.isIncome)).map CashEvent.amount).sum

/-- Spec-side restatement: the total amount of the included
expense-type events. -/
def specEventExpense (simStartDate : Ymd) (prevPeriodEnd : Option Ymd)
    (periodEnd : Ymd) (events : List CashEvent) : ℚ :=
  ((events.filter
    (fun ev => eventIncluded simStartDate prevPeriodEnd periodEnd ev &&
      !ev.isIncome)).map CashEvent.amount).sum

/-- Semi-monthly interest accrual on one debt: balances at or below the
0.5 epsilon are pinned to 0, larger balances accrue
`balance * (rate/100) / 24` plus the 16% surcharge.  Returns the
updated debt and the total charge added. -/
def accrueDebt (d : Debt) : Debt × ℚ :=
  if d.balance ≤ 1/2 then ({ d with balance := 0 }, 0)
  else
    let intereses := (d.balance * (d.rate / 100)) / 24
    let iva := intereses * (16 / 100)
    let totalCharge := intereses + iva
    ({ d with balance := d.balance + totalCharge }, totalCharge)

/-- Accrual over all debts, with the sum of the charges (the amount
added to `totalInterestPaid`). -/
def accrueAll (debts : List Debt) : List Debt × ℚ :=
  (debts.map (fun d => (accrueDebt d).1),
   (debts.map (fun d => (accrueDebt d).2)).sum)

/-- The obligation appended by one pass of the rollover loop:
the binding minimum is recomputed from the debt's current balance, and
the due date is the debt's due day (clamped) in the month after the
previous obligation's due date. -/
def nextObligation (debt : Debt) (lastOb : Obligation) : Obligation :=
  let ban := computeBanxicoMonthlyComponents debt.balance debt.rate
    debt.creditLimit
  let monthlyMin := bindingMonthlyMin debt.monthlyMin ban.baseMin
  let ym := succMonth lastOb.dueDate.year lastOb.dueDate.month
  let nextDueDate := makeDueDate ym.1 ym.2 (getDueDayOrDefault debt)
  ⟨nextDueDate, monthlyMin, monthlyMin, ban.baseMin⟩

/-- The rollover `while` loop, fueled: while the period end has passed
the latest due date, the queue holds fewer than 240 entries and the
debt still carries balance, append the next obligation. -/
def rolloverAux (periodEnd : Ymd) (debt : Debt) :
    Nat → List Obligation → Obligation → List Obligation
  | 0, obs, _ => obs
  | fuel + 1, obs, lastOb =>
    if lastOb.dueDate.key < periodEnd.key ∧ obs.length < 240 ∧
        1/2 < debt.balance then
      let newOb := nextObligation debt lastOb
      rolloverAux periodEnd debt fuel (obs ++ [newOb]) newOb
    else obs

/-- Rollover for one debt's queue.  240 units of fuel dominate the
`obs.length < 240` guard, so the fueled loop is the source's loop. -/
def rolloverDebtObs (periodEnd : Ymd) (debt : Debt)
    (obs : List Obligation) : List Obligation :=
  match obs.getLast? with
  | none => obs
  | some lastOb => rolloverAux periodEnd debt 240 obs lastOb

/-- Rollover over all queues.  The source iterates the JS object's
integer keys; each key touches only its own debt and queue, so the
iteration order is immaterial and the stored order is used. -/
def rolloverAll (periodEnd : Ymd) (debts : List Debt) (m : ObsMap) :
    ObsMap :=
  m.map (fun p =>
    match debts.find? (fun d => d.id == p.1) with
    | none => p
    | some debt =>
      if debt.balance ≤ 1/2 then p
      else (p.1, rolloverDebtObs periodEnd debt p.2))

/-- One selected entry of `debtsForMin`: the debt's position in the
debts list, its id, and the two sort keys computed from the snapshot. -/
structure MinCandidate where
  idx : Nat
  debtId : Nat
  earliestDue : Nat
  totalRemaining : ℚ
deriving DecidableEq, Repr

/-- Building `debtsForMin`: the debts having at least one obligation
with `amountRemaining > 0.5` and balance above the epsilon, with each
debt's earliest unresolved due date and total outstanding minimum. -/
def debtsForMin (debts : List Debt) (m : ObsMap) : List MinCandidate :=
  (debts.enum).filterMap (fun p =>
    let obs := (lookupObs m p.2.id).getD []
    let activeObs := obs.filter (fun o => 1/2 < o.amountRemaining)
    match activeObs with
    | [] => none
    | o0 :: _ =>
      if p.2.balance ≤ (1/2 : ℚ) then none
      else
        let earliestDue := activeObs.foldl
          (fun mn o => if o.dueDate.key < mn then o.dueDate.key else mn)
          o0.dueDate.key
        let totalRemaining := (activeObs.map Obligation.amountRemaining).sum
        some ⟨p.1, p.2.id, earliestDue, totalRemaining⟩)

/-- The comparator of the `debtsForMin` sort, in `le` form:
earliest unresolved due date ascending, ties by larger total
outstanding minimum first.  JS `Array.sort` is a stable sort, and a
stable sort of a total preorder has a unique result, so the
structurally-recursive stable `List.insertionSort` models it. -/
def minCandRel (a b : MinCandidate) : Prop :=
  a.earliestDue < b.earliestDue ∨
    (a.earliestDue = b.earliestDue ∧ b.totalRemaining ≤ a.totalRemaining)

instance : DecidableRel minCandRel := fun a b =>
  inferInstanceAs (Decidable (a.earliestDue < b.earliestDue ∨
    (a.earliestDue = b.earliestDue ∧ b.totalRemaining ≤ a.totalRemaining)))

/-- The processing order of the minimum-payment settlement. -/
def settleOrder (debts : List Debt) (m : ObsMap) : List MinCandidate :=
  List.insertionSort minCandRel (debtsForMin debts m)

/-- Due-date order on position-tagged obligations. -/
def obDueRel (a b : Nat × Obligation) : Prop :=
  a.2.dueDate.key ≤ b.2.dueDate.key

instance : DecidableRel obDueRel := fun a b =>
  inferInstanceAs (Decidable (a.2.dueDate.key ≤ b.2.dueDate.key))

/-- The stable sort of one debt's queue by due date, with each
obligation tagged by its position in the queue (the source sorts a
copy of the array whose elements alias the queue's records). -/
def sortObsByDue (obs : List Obligation) : List (Nat × Obligation) :=
  List.insertionSort obDueRel obs.enum

/-- The inner payment loop over one debt's due-date-sorted obligations:
stop when cash is exhausted, skip resolved obligations, pay
`min(cash, amountRemaining, balance)`.  Returns the final balance,
the final cash, and the `(position, amount)` payments made. -/
def payObs (balance cash : ℚ) :
    List (Nat × Obligation) → ℚ × ℚ × List (Nat × ℚ)
  | [] => (balance, cash, [])
  | (i, ob) :: rest =>
    if cash ≤ 0 then (balance, cash, [])
    else if ob.amountRemaining ≤ 1/2 then payObs balance cash rest
    else
      let pay := min cash (min ob.amountRemaining balance)
      if pay ≤ 0 then payObs balance cash rest
      else
        let r := payObs (balance - pay) (cash - pay) rest
        (r.1, r.2.1, (i, pay) :: r.2.2)

/-- Applying the recorded payments back to the queue (the source
mutates the aliased records in place, so positions are preserved). -/
def applyPays (obs : List Obligation) (pays : List (Nat × ℚ)) :
    List Obligation :=
  (obs.enum).map (fun p =>
    match pays.lookup p.1 with
    | some amt => { p.2 with amountRemaining := p.2.amountRemaining - amt }
    | none => p.2)

/-- Settling one debt's obligations against the available cash. -/
def settleDebt (cash : ℚ) (debt : Debt) (obs : List Obligation) :
    Debt × List Obligation × ℚ × ℚ :=
  let r := payObs debt.balance cash (sortObsByDue obs)
  ({ debt with balance := r.1 }, applyPays obs r.2.2,
    r.2.1, ((r.2.2).map Prod.snd).sum)

/-- One step of the settlement fold: settle the candidate debt's
obligations against the running cash. -/
def settleStep (st : List Debt × ObsMap × ℚ × List (Nat × ℚ))
    (cand : MinCandidate) : List Debt × ObsMap × ℚ × List (Nat × ℚ) :=
  match st.1.get? cand.idx with
  | none => st
  | some debt =>
    let obs := (lookupObs st.2.1 debt.id).getD []
    let r := settleDebt st.2.2.1 debt obs
    (st.1.set cand.idx r.1, updateObs st.2.1 debt.id r.2.1,
      r.2.2.1, st.2.2.2 ++ [(cand.idx, r.2.2.2)])

/-- The full minimum-payment settlement: process the selected debts in
`settleOrder`, threading the cash.  Returns the updated debts and
queues, the remaining cash, and the per-debt paid amounts in
processing order. -/
def settleMins (debts : List Debt) (m : ObsMap) (cash : ℚ) :
    List Debt × ObsMap × ℚ × List (Nat × ℚ) :=
  (settleOrder debts m).foldl settleStep (debts, m, cash, [])

/-- The comparator of the strategy sort (`le` form of the source's
`switch`): snowball = balance ascending, highMin = contractual minimum
descending, reverseSnowball = balance descending, avalanche and any
unrecognized selector = rate descending. -/
def strategyRel (strategy : String) (a b : Debt) : Prop :=
  if strategy = "snowball" then a.balance ≤ b.balance
  else if strategy = "avalanche" then b.rate ≤ a.rate
  else if strategy = "highMin" then b.monthlyMin ≤ a.monthlyMin
  else if strategy = "reverseSnowball" then b.balance ≤ a.balance
  else b.rate ≤ a.rate

instance (strategy : String) : DecidableRel (strategyRel strategy) :=
  fun a b => inferInstanceAs (Decidable
    (if strategy = "snowball" then a.balance ≤ b.balance
     else if strategy = "avalanche" then b.rate ≤ a.rate
     else if strategy = "highMin" then b.monthlyMin ≤ a.monthlyMin
     else if strategy = "reverseSnowball" then b.balance ≤ a.balance
     else b.rate ≤ a.rate))

/-- The sequential strategy loop: stop once the remaining extra is at
or below 1, pay each ordered debt `min(extra, balance)`. -/
def paySequential (cash : ℚ) :
    List (Nat × Debt) → ℚ × List (Nat × ℚ)
  | [] => (cash, [])
  | (i, d) :: rest =>
    if cash ≤ 1 then (cash, [])
    else
      let pay := min cash d.balance
      if pay ≤ 0 then paySequential cash rest
      else
        let r := paySequential (cash - pay) rest
        (r.1, (i, pay) :: r.2)

/-- The `flat` strategy loop: each active debt gets the pro-rata share
of the pool (capped at its balance); `forEach` skips, rather than
stops, once the remainder is at or below 1. -/
def payFlat (totalActiveBalance : ℚ) (cash : ℚ) :
    List (Nat × Debt) → ℚ × List (Nat × ℚ)
  | [] => (cash, [])
  | (i, d) :: rest =>
    if cash ≤ 1 then payFlat totalActiveBalance cash rest
    else
      let share := d.balance / totalActiveBalance
      let pay := min (cash * share) d.balance
      if pay ≤ 0 then payFlat totalActiveBalance cash rest
      else
        let r := payFlat totalActiveBalance (cash - pay) rest
        (r.1, (i, pay) :: r.2)

/-- Applying a strategy payment log back to the debts by position. -/
def applyStrategyLog (debts : List Debt) (log : List (Nat × ℚ)) :
    List Debt :=
  (debts.enum).map (fun p =>
    match log.lookup p.1 with
    | some amt => { p.2 with balance := p.2.balance - amt }
    | none => p.2)

/-- The ordered active debts the sequential strategies process,
tagged with their positions. -/
def strategyRelOn (strategy : String) (a b : Nat × Debt) : Prop :=
  strategyRel strategy a.2 b.2

instance (strategy : String) : DecidableRel (strategyRelOn strategy) :=
  fun a b => inferInstanceAs (Decidable (strategyRel strategy a.2 b.2))

def orderedActive (strategy : String) (debts : List Debt) :
    List (Nat × Debt) :=
  List.insertionSort (strategyRelOn strategy)
    ((debts.enum).filter (fun p => decide (1/2 < p.2.balance)))

/-- The strategy-allocation block: runs only when the pool exceeds 1,
over the debts with balance above the 0.5 epsilon. -/
def applyStrategy (strategy : String) (cash : ℚ) (debts : List Debt) :
    List Debt × ℚ × List (Nat × ℚ) :=
  if cash ≤ 1 then (debts, cash, [])
  else
    let active := (debts.enum).filter (fun p => decide (1/2 < p.2.balance))
    let totalActiveBalance := (active.map (fun p => p.2.balance)).sum
    if strategy = "flat" ∧ 0 < totalActiveBalance then
      let r := payFlat totalActiveBalance cash active
      (applyStrategyLog debts r.2, r.1, r.2)
    else
      let r := paySequential cash (orderedActive strategy debts)
      (applyStrategyLog debts r.2, r.1, r.2)

/-- Balance cleanup: balances under 1 are snapped to 0. -/
def cleanupDebts (debts : List Debt) : List Debt :=
  debts.map (fun d => if d.balance < 1 then { d with balance := 0 } else d)

/-- The goal sort key: `priority || 999`. -/
def goalPriorityKey (g : Goal) : Int :=
  if g.priority = 0 then 999 else g.priority

/-- The goal-funding loop: stop once the remainder is at or below 1,
fund each goal up to its remaining shortfall. -/
def payGoals (cash : ℚ) : List (Nat × Goal) → ℚ × List (Nat × ℚ)
  | [] => (cash, [])
  | (i, g) :: rest =>
    if cash ≤ 1 then (cash, [])
    else
      let need := g.targetAmount - g.saved
      if need ≤ 0 then payGoals cash rest
      else
        let pay := min need cash
        let r := payGoals (cash - pay) rest
        (r.1, (i, pay) :: r.2)

/-- Applying a goal-funding log back to the goals by position. -/
def applyGoalLog (goals : List Goal) (log : List (Nat × ℚ)) : List Goal :=
  (goals.enum).map (fun p =>
    match log.lookup p.1 with
    | some amt => { p.2 with saved := p.2.saved + amt }
    | none => p.2)

/-- The goal-funding waterfall: only once the aggregate debt is at or
below 5; goals with shortfall above 1, by priority ascending. -/
def fundGoals (cash : ℚ) (debtRemaining : ℚ) (goals : List Goal) :
    List Goal × ℚ × List (Nat × ℚ) :=
  if 1 < cash ∧ debtRemaining ≤ 5 ∧ 0 < goals.length then
    let ordered := List.insertionSort
      (fun a b => goalPriorityKey a.2 ≤ goalPriorityKey b.2)
      ((goals.enum).filter (fun p => decide (1 < p.2.targetAmount - p.2.saved)))
    let r := payGoals cash ordered
    (applyGoalLog goals r.2, r.1, r.2)
  else (goals, cash, [])

/-- Advancing the semi-monthly clock: a date on or before the 15th
moves to the last day of its month, a later date to the 15th of the
next month. -/
def advanceDate (d : Ymd) : Ymd :=
  if d.day ≤ 15 then ⟨d.year, d.month, daysInMonth d.year d.month⟩
  else if d.month + 1 > 11 then ⟨d.year + 1, 0, 15⟩
  else ⟨d.year, d.month + 1, 15⟩

/-- One iteration of the simulation loop. -/
def stepPeriod (input : SimInput) (st : SimState) : SimState :=
  let periodEnd := st.currentDate
  let baseNet := input.grossIncome - input.deductions.sum
  let baseFixed := input.fixedExpenses.sum
  let ev := gatherEvents input.startDate st.prevPeriodEnd periodEnd
    input.events baseNet (baseFixed + input.discretionary)
  let periodIncome := ev.1
  let periodExpense := ev.2.1
  let netThisPeriod := periodIncome - periodExpense
  let initialCash := netThisPeriod + st.carryOver
  let acc := accrueAll st.debts
  let debts1 := acc.1
  let totalInterestPaid := st.totalInterestPaid + acc.2
  let obs1 := rolloverAll periodEnd debts1 st.minObligations
  let stl := settleMins debts1 obs1 initialCash
  let debts2 := stl.1
  let obs2 := stl.2.1
  let cash2 := stl.2.2.1
  let paidMins := ((stl.2.2.2).map Prod.snd).sum
  let str := applyStrategy input.strategy cash2 debts2
  let debts3 := str.1
  let cash3 := str.2.1
  let debts4 := cleanupDebts debts3
  let debtRemaining := (debts4.map Debt.balance).sum
  let debtFreedomIndex :=
    if st.debtFreedomIndex = none ∧ debtRemaining ≤ 5 then
      some st.results.length
    else st.debtFreedomIndex
  let gl := fundGoals cash3 debtRemaining st.goals
  let goals1 := gl.1
  let cash4 := gl.2.1
  let goalRemaining :=
    (goals1.map (fun g => max 0 (g.targetAmount - g.saved))).sum
  let pocket := max 0 cash4
  let row : PeriodRow :=
    { id := st.iteration + 1
      periodEnd := periodEnd
      income := periodIncome
      expenses := periodExpense
      initialCash := initialCash
      paidMins := paidMins
      strategyDetails := str.2.2
      savingDetails := gl.2.2
      includedEvents := ev.2.2
      endBalance := debtRemaining
      pocket := pocket }
  { debts := debts4
    goals := goals1
    minObligations := obs2
    currentDate := advanceDate st.currentDate
    prevPeriodEnd := some periodEnd
    iteration := st.iteration + 1
    totalInterestPaid := totalInterestPaid
    debtRemaining := debtRemaining
    goalRemaining := goalRemaining
    carryOver := pocket
    debtFreedomIndex := debtFreedomIndex
    results := st.results ++ [row] }

/-- The state a run starts from. -/
def initState (input : SimInput) : SimState :=
  let goals0 := input.goals.map (fun g => { g with saved := g.startingSaved })
  { debts := input.debts
    goals := goals0
    minObligations := seedObligations input.startDate input.debts
    currentDate := input.startDate
    prevPeriodEnd := none
    iteration := 0
    totalInterestPaid := 0
    debtRemaining := (input.debts.map Debt.balance).sum
    goalRemaining :=
      (goals0.map (fun g => max 0 (g.targetAmount - g.saved))).sum
    carryOver := 0
    debtFreedomIndex := none
    results := [] }

/-- The fueled main loop: run while the aggregate debt or the aggregate
goal shortfall exceeds 5; the fuel realizes the
`iteration < MAX_ITERS` guard. -/
def simLoop (input : SimInput) : Nat → SimState → SimState
  | 0, st => st
  | fuel + 1, st =>
    if 5 < st.debtRemaining ∨ 5 < st.goalRemaining then
      simLoop input fuel (stepPeriod input st)
    else st

/-- `runSimulation`: the whole engine run, capped at 120 iterations. -/
def runSimulation (input : SimInput) : SimState :=
  simLoop input 120 (initState input)

/-- Total money paid toward debts across a run, from the recorded rows
(minimum payments plus strategy-extra payments). -/
def totalDebtPayments (st : SimState) : ℚ :=
  (st.results.map (fun r =>
    r.paidMins + ((r.strategyDetails.map Prod.snd).sum))).sum

/-- The cash left at the end of a period, recomputed from its row:
cash available before allocation, minus the minimum payments, the
strategy payments and the goal contributions. -/
def rowRemainingCash (r : PeriodRow) : ℚ :=
  r.initialCash - r.paidMins - ((r.strategyDetails.map Prod.snd).sum) -
    ((r.savingDetails.map Prod.snd).sum)

instance : IsTotal (Nat × Obligation) obDueRel :=
  ⟨fun a b => Nat.le_total a.2.dueDate.key b.2.dueDate.key⟩

instance : IsTrans (Nat × Obligation) obDueRel :=
  ⟨fun _ _ _ hab hbc => Nat.le_trans hab hbc⟩

instance : IsTotal MinCandidate minCandRel := by
  constructor
  intro a b
  rcases Nat.lt_trichotomy a.earliestDue b.earliestDue with h | h | h
  · exact Or.inl (Or.inl h)
  · rcases le_total b.totalRemaining a.totalRemaining with h2 | h2
    · exact Or.inl (Or.inr ⟨h, h2⟩)
    · exact Or.inr (Or.inr ⟨h.symm, h2⟩)
  · exact Or.inr (Or.inl h)

instance : IsTrans MinCandidate minCandRel := by
  constructor
  intro a b c hab hbc
  rcases hab with h1 | ⟨h1e, h1t⟩
  · rcases hbc with h2 | ⟨h2e, _⟩
    · exact Or.inl (Nat.lt_trans h1 h2)
    · exact Or.inl (h2e ▸ h1)
  · rcases hbc with h2 | ⟨h2e, h2t⟩
    · exact Or.inl (h1e ▸ h2)
    · exact Or.inr ⟨h1e.trans h2e, le_trans h2t h1t⟩

instance (s : String) : IsTotal Debt (strategyRel s) := by
  constructor
  intro a b
  unfold strategyRel
  split_ifs <;> exact le_total _ _

instance (s : String) : IsTrans Debt (strategyRel s) := by
  constructor
  intro a b c hab hbc
  unfold strategyRel at hab hbc ⊢
  split_ifs at hab hbc ⊢ <;>
    first
    | exact le_trans hab hbc
    | exact le_trans hbc hab

instance (s : String) : IsTotal (Nat × Debt) (strategyRelOn s) :=
  ⟨fun a b => IsTotal.total (r := strategyRel s) a.2 b.2⟩

instance (s : String) : IsTrans (Nat × Debt) (strategyRelOn s) :=
  ⟨fun _ _ _ hab hbc => IsTrans.trans (r := strategyRel s) _ _ _ hab hbc⟩

/-! ### Claim-side (spec-side) definitions

These follow the wording of the specification rather than the source;
they exist to be compared with the source-derived functions above. -/

/-- The due-date rule as claim C2 words it: the date one calendar month
after the previous obligation's due date, with that date's day-of-month
clamped to the target month's length. -/
def specNextDueDate (prev : Ymd) : Ymd :=
  let ym := succMonth prev.year prev.month
  ⟨ym.1, ym.2, min prev.day (daysInMonth ym.1 ym.2)⟩

/-- The semi-monthly interest-plus-surcharge charge the accrual phase
adds for one debt (zero for balances at or below the epsilon). -/
def semiMonthlyCharge (d : Debt) : ℚ :=
  if d.balance ≤ 1/2 then 0
  else
    let intereses := (d.balance * (d.rate / 100)) / 24
    intereses + intereses * (16 / 100)

/-- The invariant claim C8 asserts of an obligation queue, together
with the date normalization facts needed to state the calendar
arithmetic: every obligation keeps `0 ≤ amountRemaining ≤ monthlyMin`,
has a normalized due date, and the queue is sorted by due date
ascending. -/
def ObsInvariant (obs : List Obligation) : Prop :=
  (∀ ob ∈ obs, 0 ≤ ob.amountRemaining ∧ ob.amountRemaining ≤ ob.monthlyMin ∧
    ValidYmd ob.dueDate) ∧
  List.Pairwise (fun a b => a.dueDate.key ≤ b.dueDate.key) obs

instance : DecidablePred ObsInvariant := fun obs => by
  unfold ObsInvariant
  infer_instance

/-! ### Concrete inputs used by the counterexamples and witnesses -/

/-- A run whose single cash event is dated after the last simulated
period's end: one debt paid off in the first period. -/
def ce4Input : SimInput :=
  { startDate := ⟨2025, 0, 10⟩
    grossIncome := 1000
    deductions := []
    fixedExpenses := []
    discretionary := 0
    strategy := "snowball"
    debts := [⟨1, 100, 0, none, 0, some 25⟩]
    goals := []
    events := [⟨⟨2025, 1, 20⟩, 50, true⟩] }

/-- A run whose first period ends with negative cash (an expense event
larger than the period's income). -/
def ce5Input : SimInput :=
  { startDate := ⟨2025, 0, 10⟩
    grossIncome := 1000
    deductions := []
    fixedExpenses := []
    discretionary := 0
    strategy := "snowball"
    debts := [⟨1, 50, 0, none, 0, some 25⟩]
    goals := []
    events := [⟨⟨2025, 0, 10⟩, 1200, false⟩] }

/-- A run in which interest accrues onto a small balance that the
cleanup then discards, while no payment of any kind is ever made:
the goal is funded by a period-2 income event, ending the run. -/
def ce9Input : SimInput :=
  { startDate := ⟨2025, 0, 10⟩
    grossIncome := 0
    deductions := []
    fixedExpenses := []
    discretionary := 0
    strategy := "snowball"
    debts := [⟨1, 4/5, 30, none, 0, some 25⟩]
    goals := [⟨1, 100, 0, 0, 1⟩]
    events := [⟨⟨2025, 0, 20⟩, 200, true⟩] }

/-- The state of the `ce9Input` run after its first period. -/
def ce9State1 : SimState :=
  { debts := [⟨1, 0, 30, none, 0, some 25⟩]
    goals := [⟨1, 100, 0, 0, 1⟩]
    minObligations := [(1, [⟨⟨2025, 0, 25⟩, 22/625, 22/625, 22/625⟩])]
    currentDate := ⟨2025, 0, 31⟩
    prevPeriodEnd := some ⟨2025, 0, 10⟩
    iteration := 1
    totalInterestPaid := 29/2500
    debtRemaining := 0
    goalRemaining := 100
    carryOver := 0
    debtFreedomIndex := some 0
    results := [⟨1, ⟨2025, 0, 10⟩, 0, 0, 0, 0, [], [], [], 0, 0⟩] }

/-- The state of the `ce9Input` run after its second period. -/
def ce9State2 : SimState :=
  { debts := [⟨1, 0, 30, none, 0, some 25⟩]
    goals := [⟨1, 100, 0, 100, 1⟩]
    minObligations := [(1, [⟨⟨2025, 0, 25⟩, 22/625, 22/625, 22/625⟩])]
    currentDate := ⟨2025, 1, 15⟩
    prevPeriodEnd := some ⟨2025, 0, 31⟩
    iteration := 2
    totalInterestPaid := 29/2500
    debtRemaining := 0
    goalRemaining := 0
    carryOver := 100
    debtFreedomIndex := some 0
    results := [⟨1, ⟨2025, 0, 10⟩, 0, 0, 0, 0, [], [], [], 0, 0⟩,
      ⟨2, ⟨2025, 0, 31⟩, 200, 0, 200, 0, [], [(0, 100)], [0], 0, 100⟩] }

/-- The debt used by the C2 counterexample: user due day 31, so a
due date clamped by February is followed by one on March 31. -/
def ce2Debt : Debt := ⟨1, 1000, 10, none, 0, some 31⟩

/-- A run with a large zero-rate debt and an unrelated goal: after one
period the aggregate balance is still far above the epsilon. -/
def c6Input : SimInput :=
  { startDate := ⟨2025, 0, 10⟩
    grossIncome := 0
    deductions := []
    fixedExpenses := []
    discretionary := 0
    strategy := "snowball"
    debts := [⟨1, 100, 0, none, 0, some 25⟩]
    goals := [⟨1, 50, 0, 0, 1⟩]
    events := [] }

/-- The debts used by the C7 counterexample. -/
def ce7DebtA : Debt := ⟨1, 2, 50, none, 100, none⟩

def ce7DebtB : Debt := ⟨2, 5, 80, none, 200, none⟩

/-! ## Lemmas about the payment loops -/

theorem payObs_cash_sub (l : List (Nat × Obligation)) : ∀ b c : ℚ,
    (payObs b c l).2.1 = c - (((payObs b c l).2.2).map Prod.snd).sum := by
  induction l with
  | nil => intro b c; simp [payObs]
  | cons hd tl ih =>
    intro b c
    obtain ⟨i, ob⟩ := hd
    simp only [payObs]
    by_cases h1 : c ≤ 0
    · simp [h1]
    · rw [if_neg h1]
      by_cases h2 : ob.amountRemaining ≤ 1/2
      · rw [if_pos h2]; exact ih b c
      · rw [if_neg h2]
        by_cases h3 : min c (min ob.amountRemaining b) ≤ 0
        · rw [if_pos h3]; exact ih b c
        · rw [if_neg h3]
          have := ih (b - min c (min ob.amountRemaining b))
            (c - min c (min ob.amountRemaining b))
          simp only [List.map_cons, List.sum_cons]
          rw [this]; ring

theorem payObs_balance_sub (l : List (Nat × Obligation)) : ∀ b c : ℚ,
    (payObs b c l).1 = b - (((payObs b c l).2.2).map Prod.snd).sum := by
  induction l with
  | nil => intro b c; simp [payObs]
  | cons hd tl ih =>
    intro b c
    obtain ⟨i, ob⟩ := hd
    simp only [payObs]
    by_cases h1 : c ≤ 0
    · simp [h1]
    · rw [if_neg h1]
      by_cases h2 : ob.amountRemaining ≤ 1/2
      · rw [if_pos h2]; exact ih b c
      · rw [if_neg h2]
        by_cases h3 : min c (min ob.amountRemaining b) ≤ 0
        · rw [if_pos h3]; exact ih b c
        · rw [if_neg h3]
          have := ih (b - min c (min ob.amountRemaining b))
            (c - min c (min ob.amountRemaining b))
          simp only [List.map_cons, List.sum_cons]
          rw [this]; ring

theorem payObs_pays_mem (l : List (Nat × Obligation)) : ∀ (b c : ℚ) {i : Nat}
    {p : ℚ}, (i, p) ∈ (payObs b c l).2.2 →
    0 < p ∧ ∃ ob, (i, ob) ∈ l ∧ 1/2 < ob.amountRemaining ∧
      p ≤ ob.amountRemaining := by
  induction l with
  | nil => intro b c i p h; simp [payObs] at h
  | cons hd tl ih =>
    intro b c i p h
    obtain ⟨j, ob⟩ := hd
    simp only [payObs] at h
    by_cases h1 : c ≤ 0
    · rw [if_pos h1] at h; simp at h
    · rw [if_neg h1] at h
      by_cases h2 : ob.amountRemaining ≤ 1/2
      · rw [if_pos h2] at h
        obtain ⟨hp, ob2, hmem, hrem, hle⟩ := ih b c h
        exact ⟨hp, ob2, List.mem_cons_of_mem _ hmem, hrem, hle⟩
      · rw [if_neg h2] at h
        by_cases h3 : min c (min ob.amountRemaining b) ≤ 0
        · rw [if_pos h3] at h
          obtain ⟨hp, ob2, hmem, hrem, hle⟩ := ih b c h
          exact ⟨hp, ob2, List.mem_cons_of_mem _ hmem, hrem, hle⟩
        · rw [if_neg h3] at h
          simp only [List.mem_cons] at h
          rcases h with h | h
          · obtain ⟨hi, hp⟩ := Prod.mk.injEq .. ▸ h
            refine ⟨?_, ob, ?_, ?_, ?_⟩
            · rw [hp]; exact lt_of_not_le h3
            · rw [hi]; exact List.mem_cons_self _ _
            · exact lt_of_not_le h2
            · rw [hp]; exact le_trans (min_le_right _ _) (min_le_left _ _)
          · obtain ⟨hp, ob2, hmem, hrem, hle⟩ := ih _ _ h
            exact ⟨hp, ob2, List.mem_cons_of_mem _ hmem, hrem, hle⟩

theorem payObs_cash_nonneg (l : List (Nat × Obligation)) : ∀ b c : ℚ,
    0 ≤ c → 0 ≤ (payObs b c l).2.1 := by
  induction l with
  | nil => intro b c h; simpa [payObs] using h
  | cons hd tl ih =>
    intro b c h
    obtain ⟨i, ob⟩ := hd
    simp only [payObs]
    by_cases h1 : c ≤ 0
    · rw [if_pos h1]; exact h
    · rw [if_neg h1]
      by_cases h2 : ob.amountRemaining ≤ 1/2
      · rw [if_pos h2]; exact ih b c h
      · rw [if_neg h2]
        by_cases h3 : min c (min ob.amountRemaining b) ≤ 0
        · rw [if_pos h3]; exact ih b c h
        · rw [if_neg h3]
          refine ih _ _ ?_
          have : min c (min ob.amountRemaining b) ≤ c := min_le_left _ _
          linarith

theorem payObs_balance_nonneg (l : List (Nat × Obligation)) : ∀ b c : ℚ,
    0 ≤ b → 0 ≤ (payObs b c l).1 := by
  induction l with
  | nil => intro b c h; simpa [payObs] using h
  | cons hd tl ih =>
    intro b c h
    obtain ⟨i, ob⟩ := hd
    simp only [payObs]
    by_cases h1 : c ≤ 0
    · rw [if_pos h1]; exact h
    · rw [if_neg h1]
      by_cases h2 : ob.amountRemaining ≤ 1/2
      · rw [if_pos h2]; exact ih b c h
      · rw [if_neg h2]
        by_cases h3 : min c (min ob.amountRemaining b) ≤ 0
        · rw [if_pos h3]; exact ih b c h
        · rw [if_neg h3]
          refine ih _ _ ?_
          have : min c (min ob.amountRemaining b) ≤ b :=
            le_trans (min_le_right _ _) (min_le_right _ _)
          linarith

theorem payObs_cash_le (l : List (Nat × Obligation)) (b c : ℚ) :
    (payObs b c l).2.1 ≤ c := by
  rw [payObs_cash_sub]
  have : 0 ≤ (((payObs b c l).2.2).map Prod.snd).sum := by
    refine List.sum_nonneg ?_
    intro x hx
    obtain ⟨⟨i, p⟩, hmem, hx⟩ := List.mem_map.mp hx
    obtain ⟨hp, -⟩ := payObs_pays_mem l b c hmem
    simpa [← hx] using le_of_lt hp
  linarith

theorem payObs_pays_keys (l : List (Nat × Obligation)) : ∀ (b c : ℚ) {i : Nat}
    {p : ℚ}, (i, p) ∈ (payObs b c l).2.2 → ∃ ob, (i, ob) ∈ l := by
  intro b c i p h
  obtain ⟨-, ob, hmem, -, -⟩ := payObs_pays_mem l b c h
  exact ⟨ob, hmem⟩

theorem paySequential_cash_sub (l : List (Nat × Debt)) : ∀ c : ℚ,
    (paySequential c l).1 = c - (((paySequential c l).2).map Prod.snd).sum := by
  induction l with
  | nil => intro c; simp [paySequential]
  | cons hd tl ih =>
    intro c
    obtain ⟨i, d⟩ := hd
    simp only [paySequential]
    by_cases h1 : c ≤ 1
    · simp [h1]
    · rw [if_neg h1]
      by_cases h2 : min c d.balance ≤ 0
      · rw [if_pos h2]; exact ih c
      · rw [if_neg h2]
        simp only [List.map_cons, List.sum_cons]
        rw [ih (c - min c d.balance)]; ring

theorem paySequential_pays_mem (l : List (Nat × Debt)) : ∀ (c : ℚ) {i : Nat}
    {p : ℚ}, (i, p) ∈ (paySequential c l).2 →
    0 < p ∧ ∃ d, (i, d) ∈ l ∧ p ≤ d.balance := by
  induction l with
  | nil => intro c i p h; simp [paySequential] at h
  | cons hd tl ih =>
    intro c i p h
    obtain ⟨j, d⟩ := hd
    simp only [paySequential] at h
    by_cases h1 : c ≤ 1
    · rw [if_pos h1] at h; simp at h
    · rw [if_neg h1] at h
      by_cases h2 : min c d.balance ≤ 0
      · rw [if_pos h2] at h
        obtain ⟨hp, d2, hmem, hle⟩ := ih c h
        exact ⟨hp, d2, List.mem_cons_of_mem _ hmem, hle⟩
      · rw [if_neg h2] at h
        simp only [List.mem_cons] at h
        rcases h with h | h
        · obtain ⟨hi, hp⟩ := Prod.mk.injEq .. ▸ h
          refine ⟨?_, d, ?_, ?_⟩
          · rw [hp]; exact lt_of_not_le h2
          · rw [hi]; exact List.mem_cons_self _ _
          · rw [hp]; exact min_le_right _ _
        · obtain ⟨hp, d2, hmem, hle⟩ := ih _ h
          exact ⟨hp, d2, List.mem_cons_of_mem _ hmem, hle⟩

theorem paySequential_head (i : Nat) (d : Debt) (rest : List (Nat × Debt))
    (c : ℚ) (hc : 1 < c) (hb : 0 < d.balance) :
    (paySequential c ((i, d) :: rest)).2 =
      (i, min c d.balance) ::
        (paySequential (c - min c d.balance) rest).2 := by
  simp only [paySequential]
  rw [if_neg (not_le.mpr hc)]
  rw [if_neg (not_le.mpr (lt_min (by linarith) hb))]

theorem payFlat_cash_sub (l : List (Nat × Debt)) (t : ℚ) : ∀ c : ℚ,
    (payFlat t c l).1 = c - (((payFlat t c l).2).map Prod.snd).sum := by
  induction l with
  | nil => intro c; simp [payFlat]
  | cons hd tl ih =>
    intro c
    obtain ⟨i, d⟩ := hd
    simp only [payFlat]
    by_cases h1 : c ≤ 1
    · rw [if_pos h1]; exact ih c
    · rw [if_neg h1]
      by_cases h2 : min (c * (d.balance / t)) d.balance ≤ 0
      · rw [if_pos h2]; exact ih c
      · rw [if_neg h2]
        simp only [List.map_cons, List.sum_cons]
        rw [ih (c - min (c * (d.balance / t)) d.balance)]; ring

theorem payFlat_pays_mem (l : List (Nat × Debt)) (t : ℚ) : ∀ (c : ℚ) {i : Nat}
    {p : ℚ}, (i, p) ∈ (payFlat t c l).2 →
    0 < p ∧ ∃ d, (i, d) ∈ l ∧ p ≤ d.balance := by
  induction l with
  | nil => intro c i p h; simp [payFlat] at h
  | cons hd tl ih =>
    intro c i p h
    obtain ⟨j, d⟩ := hd
    simp only [payFlat] at h
    by_cases h1 : c ≤ 1
    · rw [if_pos h1] at h
      obtain ⟨hp, d2, hmem, hle⟩ := ih c h
      exact ⟨hp, d2, List.mem_cons_of_mem _ hmem, hle⟩
    · rw [if_neg h1] at h
      by_cases h2 : min (c * (d.balance / t)) d.balance ≤ 0
      · rw [if_pos h2] at h
        obtain ⟨hp, d2, hmem, hle⟩ := ih c h
        exact ⟨hp, d2, List.mem_cons_of_mem _ hmem, hle⟩
      · rw [if_neg h2] at h
        simp only [List.mem_cons] at h
        rcases h with h | h
        · obtain ⟨hi, hp⟩ := Prod.mk.injEq .. ▸ h
          refine ⟨?_, d, ?_, ?_⟩
          · rw [hp]; exact lt_of_not_le h2
          · rw [hi]; exact List.mem_cons_self _ _
          · rw [hp]; exact min_le_right _ _
        · obtain ⟨hp, d2, hmem, hle⟩ := ih _ h
          exact ⟨hp, d2, List.mem_cons_of_mem _ hmem, hle⟩

theorem payGoals_cash_sub (l : List (Nat × Goal)) : ∀ c : ℚ,
    (payGoals c l).1 = c - (((payGoals c l).2).map Prod.snd).sum := by
  induction l with
  | nil => intro c; simp [payGoals]
  | cons hd tl ih =>
    intro c
    obtain ⟨i, g⟩ := hd
    simp only [payGoals]
    by_cases h1 : c ≤ 1
    · simp [h1]
    · rw [if_neg h1]
      by_cases h2 : g.targetAmount - g.saved ≤ 0
      · rw [if_pos h2]; exact ih c
      · rw [if_neg h2]
        simp only [List.map_cons, List.sum_cons]
        rw [ih (c - min (g.targetAmount - g.saved) c)]; ring

theorem payGoals_pays_mem (l : List (Nat × Goal)) : ∀ (c : ℚ) {i : Nat}
    {p : ℚ}, (i, p) ∈ (payGoals c l).2 →
    0 < p ∧ ∃ g, (i, g) ∈ l ∧ p ≤ g.targetAmount - g.saved := by
  induction l with
  | nil => intro c i p h; simp [payGoals] at h
  | cons hd tl ih =>
    intro c i p h
    obtain ⟨j, g⟩ := hd
    simp only [payGoals] at h
    by_cases h1 : c ≤ 1
    · rw [if_pos h1] at h; simp at h
    · rw [if_neg h1] at h
      by_cases h2 : g.targetAmount - g.saved ≤ 0
      · rw [if_pos h2] at h
        obtain ⟨hp, g2, hmem, hle⟩ := ih c h
        exact ⟨hp, g2, List.mem_cons_of_mem _ hmem, hle⟩
      · rw [if_neg h2] at h
        simp only [List.mem_cons] at h
        rcases h with h | h
        · obtain ⟨hi, hp⟩ := Prod.mk.injEq .. ▸ h
          refine ⟨?_, g, ?_, ?_⟩
          · rw [hp]; exact lt_min (lt_of_not_le h2) (by linarith)
          · rw [hi]; exact List.mem_cons_self _ _
          · rw [hp]; exact min_le_left _ _
        · obtain ⟨hp, g2, hmem, hle⟩ := ih _ h
          exact ⟨hp, g2, List.mem_cons_of_mem _ hmem, hle⟩

/-! ## Lemmas about the positional updates -/

theorem applyPays_length (obs : List Obligation) (pays : List (Nat × ℚ)) :
    (applyPays obs pays).length = obs.length := by
  simp [applyPays, List.enum_length]

theorem applyPays_getElem? (obs : List Obligation) (pays : List (Nat × ℚ))
    (j : Nat) :
    (applyPays obs pays)[j]? = (obs[j]?).map (fun ob =>
      match pays.lookup j with
      | some amt => { ob with amountRemaining := ob.amountRemaining - amt }
      | none => ob) := by
  simp only [applyPays, List.getElem?_map, List.getElem?_enum]
  cases obs[j]? <;> simp

theorem applyStrategyLog_length (debts : List Debt) (log : List (Nat × ℚ)) :
    (applyStrategyLog debts log).length = debts.length := by
  simp [applyStrategyLog, List.enum_length]

theorem applyStrategyLog_getElem? (debts : List Debt) (log : List (Nat × ℚ))
    (j : Nat) :
    (applyStrategyLog debts log)[j]? = (debts[j]?).map (fun d =>
      match log.lookup j with
      | some amt => { d with balance := d.balance - amt }
      | none => d) := by
  simp only [applyStrategyLog, List.getElem?_map, List.getElem?_enum]
  cases debts[j]? <;> simp

theorem applyGoalLog_length (goals : List Goal) (log : List (Nat × ℚ)) :
    (applyGoalLog goals log).length = goals.length := by
  simp [applyGoalLog, List.enum_length]

theorem applyGoalLog_getElem? (goals : List Goal) (log : List (Nat × ℚ))
    (j : Nat) :
    (applyGoalLog goals log)[j]? = (goals[j]?).map (fun g =>
      match log.lookup j with
      | some amt => { g with saved := g.saved + amt }
      | none => g) := by
  simp only [applyGoalLog, List.getElem?_map, List.getElem?_enum]
  cases goals[j]? <;> simp

/-! ## Lemmas about the minimum-payment settlement -/

theorem mem_of_lookup_eq_some {β : Type} {l : List (Nat × β)} {k : Nat}
    {b : β} (h : l.lookup k = some b) : (k, b) ∈ l := by
  obtain ⟨l₁, l₂, rfl, -⟩ := List.lookup_eq_some_iff.mp h
  simp

theorem sortObsByDue_perm (obs : List Obligation) :
    (sortObsByDue obs).Perm obs.enum :=
  List.perm_insertionSort obDueRel obs.enum

theorem sortObsByDue_sorted (obs : List Obligation) :
    List.Sorted obDueRel (sortObsByDue obs) :=
  List.sorted_insertionSort obDueRel obs.enum

theorem mem_sortObsByDue {obs : List Obligation} {j : Nat} {ob : Obligation} :
    (j, ob) ∈ sortObsByDue obs ↔ obs[j]? = some ob := by
  rw [(sortObsByDue_perm obs).mem_iff]
  exact List.mem_enum_iff_getElem?

theorem settleDebt_cash (cash : ℚ) (debt : Debt) (obs : List Obligation) :
    (settleDebt cash debt obs).2.2.1 = cash - (settleDebt cash debt obs).2.2.2 := by
  simp only [settleDebt]
  rw [payObs_cash_sub]

theorem settleDebt_paid_nonneg (cash : ℚ) (debt : Debt)
    (obs : List Obligation) : 0 ≤ (settleDebt cash debt obs).2.2.2 := by
  simp only [settleDebt]
  refine List.sum_nonneg ?_
  intro x hx
  obtain ⟨⟨i, p⟩, hmem, hx⟩ := List.mem_map.mp hx
  obtain ⟨hp, -⟩ := payObs_pays_mem _ _ _ hmem
  simpa [← hx] using le_of_lt hp

theorem settleDebt_cash_nonneg (cash : ℚ) (debt : Debt)
    (obs : List Obligation) (h : 0 ≤ cash) :
    0 ≤ (settleDebt cash debt obs).2.2.1 := by
  simp only [settleDebt]
  exact payObs_cash_nonneg _ _ _ h

theorem settleDebt_cash_le (cash : ℚ) (debt : Debt) (obs : List Obligation) :
    (settleDebt cash debt obs).2.2.1 ≤ cash := by
  simp only [settleDebt]
  exact payObs_cash_le _ _ _

theorem settleDebt_balance_nonneg (cash : ℚ) (debt : Debt)
    (obs : List Obligation) (h : 0 ≤ debt.balance) :
    0 ≤ (settleDebt cash debt obs).1.balance := by
  simp only [settleDebt]
  exact payObs_balance_nonneg _ _ _ h

theorem settleDebt_keeps_fields (cash : ℚ) (debt : Debt)
    (obs : List Obligation) :
    (settleDebt cash debt obs).1.id = debt.id ∧
    (settleDebt cash debt obs).1.rate = debt.rate ∧
    (settleDebt cash debt obs).1.monthlyMin = debt.monthlyMin := by
  simp [settleDebt]

/-- Pointwise effect of settling on one queue: every obligation keeps
its due date, monthly minimum and floor, and its remaining amount
either stays or decreases by a payment bounded by the amount itself. -/
theorem settleDebt_obs_rem (cash : ℚ) (debt : Debt) (obs : List Obligation)
    (j : Nat) (ob : Obligation) (hj : obs[j]? = some ob) :
    ∃ ob2, ((settleDebt cash debt obs).2.1)[j]? = some ob2 ∧
      ob2.dueDate = ob.dueDate ∧ ob2.monthlyMin = ob.monthlyMin ∧
      ob2.banxicoBaseMin = ob.banxicoBaseMin ∧
      ob2.amountRemaining ≤ ob.amountRemaining ∧
      (0 ≤ ob.amountRemaining → 0 ≤ ob2.amountRemaining) := by
  simp only [settleDebt]
  rw [applyPays_getElem?, hj]
  cases hl : (payObs debt.balance cash (sortObsByDue obs)).2.2.lookup j with
  | none =>
    refine ⟨ob, by simp [hl], rfl, rfl, rfl, le_refl _, fun h => h⟩
  | some amt =>
    have hmem := mem_of_lookup_eq_some hl
    obtain ⟨hpos, ob3, hmem3, hrem3, hle3⟩ := payObs_pays_mem _ _ _ hmem
    have hsame : obs[j]? = some ob3 := mem_sortObsByDue.mp hmem3
    rw [hj] at hsame
    obtain rfl : ob = ob3 := by injection hsame
    refine ⟨{ ob with amountRemaining := ob.amountRemaining - amt },
      by simp [hl], rfl, rfl, rfl, by simp; linarith, fun _ => by
        simp; linarith⟩

/-- The pointwise queue relation the settlement fold preserves. -/
def ObsWeaker (obs2 obs : List Obligation) : Prop :=
  obs2.length = obs.length ∧
  ∀ (j : Nat) (ob ob2 : Obligation), obs[j]? = some ob →
    obs2[j]? = some ob2 →
    ob2.dueDate = ob.dueDate ∧ ob2.monthlyMin = ob.monthlyMin ∧
    ob2.banxicoBaseMin = ob.banxicoBaseMin ∧
    ob2.amountRemaining ≤ ob.amountRemaining ∧
    (0 ≤ ob.amountRemaining → 0 ≤ ob2.amountRemaining)

theorem obsWeaker_refl (obs : List Obligation) : ObsWeaker obs obs := by
  refine ⟨rfl, ?_⟩
  intro j ob ob2 h1 h2
  rw [h1] at h2
  obtain rfl := Option.some.injEq .. ▸ h2
  exact ⟨rfl, rfl, rfl, le_refl _, fun h => h⟩

theorem obsWeaker_trans {a b c : List Obligation} (h1 : ObsWeaker b a)
    (h2 : ObsWeaker c b) : ObsWeaker c a := by
  refine ⟨h2.1.trans h1.1, ?_⟩
  intro j ob ob2 ha hc
  have hlen : j < b.length := by
    rw [h1.1]
    exact (List.getElem?_eq_some_iff.mp ha).1
  have hb := List.getElem?_eq_getElem hlen
  obtain ⟨e1, e2, e3, e4, e5⟩ := h1.2 j ob (b.get ⟨j, hlen⟩) ha hb
  obtain ⟨f1, f2, f3, f4, f5⟩ := h2.2 j (b.get ⟨j, hlen⟩) ob2 hb hc
  exact ⟨f1.trans e1, f2.trans e2, f3.trans e3, f4.trans e4,
    fun h => f5 (e5 h)⟩

theorem settleDebt_obsWeaker (cash : ℚ) (debt : Debt)
    (obs : List Obligation) : ObsWeaker (settleDebt cash debt obs).2.1 obs := by
  refine ⟨by simp [settleDebt, applyPays_length], ?_⟩
  intro j ob ob2 h1 h2
  obtain ⟨ob3, h3, e⟩ := settleDebt_obs_rem cash debt obs j ob h1
  rw [h3] at h2
  obtain rfl : ob3 = ob2 := by injection h2
  exact e

theorem lookupObs_cons (hd : Nat × List Obligation) (tl : ObsMap) (id : Nat) :
    lookupObs (hd :: tl) id =
      if hd.1 = id then some hd.2 else lookupObs tl id := by
  by_cases hk : hd.1 = id
  · have hb : (hd.1 == id) = true := by simpa using hk
    simp [lookupObs, List.find?, hb, hk]
  · have hb : (hd.1 == id) = false := by simpa using hk
    simp [lookupObs, List.find?, hb, hk]

theorem updateObs_cons (hd : Nat × List Obligation) (tl : ObsMap) (id : Nat)
    (v : List Obligation) :
    updateObs (hd :: tl) id v =
      (if hd.1 = id then (id, v) else hd) :: updateObs tl id v := by
  by_cases hk : hd.1 = id
  · have hb : (hd.1 == id) = true := by simpa using hk
    simp [updateObs, List.map_cons, hb, hk]
  · have hb : (hd.1 == id) = false := by simpa using hk
    simp [updateObs, List.map_cons, hb, hk]

theorem lookupObs_updateObs_self {m : ObsMap} {id : Nat}
    {obs : List Obligation} (h : lookupObs m id = some obs)
    (v : List Obligation) : lookupObs (updateObs m id v) id = some v := by
  induction m with
  | nil => simp [lookupObs] at h
  | cons hd tl ih =>
    rw [updateObs_cons]
    rw [lookupObs_cons] at h
    by_cases hk : hd.1 = id
    · rw [if_pos hk, lookupObs_cons]
      simp
    · rw [if_neg hk, lookupObs_cons, if_neg hk]
      rw [if_neg hk] at h
      exact ih h

theorem lookupObs_updateObs_ne {m : ObsMap} {id id2 : Nat}
    (h : id2 ≠ id) (v : List Obligation) :
    lookupObs (updateObs m id v) id2 = lookupObs m id2 := by
  induction m with
  | nil => simp [lookupObs, updateObs]
  | cons hd tl ih =>
    rw [updateObs_cons]
    by_cases hk : hd.1 = id
    · rw [if_pos hk, lookupObs_cons, lookupObs_cons]
      rw [if_neg (fun e => h (Eq.symm e))]
      rw [if_neg (fun e => h (by rw [← hk]; exact e.symm))]
      exact ih
    · rw [if_neg hk, lookupObs_cons, lookupObs_cons]
      by_cases hk2 : hd.1 = id2
      · rw [if_pos hk2, if_pos hk2]
      · rw [if_neg hk2, if_neg hk2]
        exact ih

theorem updateObs_of_lookup_none {m : ObsMap} {id : Nat}
    (h : lookupObs m id = none) (v : List Obligation) :
    updateObs m id v = m := by
  induction m with
  | nil => simp [updateObs]
  | cons hd tl ih =>
    rw [lookupObs_cons] at h
    by_cases hk : hd.1 = id
    · rw [if_pos hk] at h; simp at h
    · rw [if_neg hk] at h
      rw [updateObs_cons, if_neg hk, ih h]

/-- The map-level settlement relation. -/
def MapWeaker (m2 m1 : ObsMap) : Prop :=
  ∀ id obs, lookupObs m1 id = some obs →
    ∃ obs2, lookupObs m2 id = some obs2 ∧ ObsWeaker obs2 obs

theorem mapWeaker_refl (m : ObsMap) : MapWeaker m m :=
  fun _ obs h => ⟨obs, h, obsWeaker_refl obs⟩

theorem mapWeaker_trans {a b c : ObsMap} (h1 : MapWeaker b a)
    (h2 : MapWeaker c b) : MapWeaker c a := by
  intro id obs h
  obtain ⟨o1, e1, w1⟩ := h1 id obs h
  obtain ⟨o2, e2, w2⟩ := h2 id o1 e1
  exact ⟨o2, e2, obsWeaker_trans w1 w2⟩

theorem settleStep_mapWeaker (st : List Debt × ObsMap × ℚ × List (Nat × ℚ))
    (cand : MinCandidate) : MapWeaker (settleStep st cand).2.1 st.2.1 := by
  unfold settleStep
  cases hd : st.1.get? cand.idx with
  | none => exact mapWeaker_refl _
  | some debt =>
    intro id obs h
    by_cases hid : id = debt.id
    · subst hid
      refine ⟨_, lookupObs_updateObs_self h _, ?_⟩
      have hg : (lookupObs st.2.1 debt.id).getD [] = obs := by rw [h]; rfl
      rw [hg]
      exact settleDebt_obsWeaker _ _ _
    · exact ⟨obs, by rw [lookupObs_updateObs_ne hid]; exact h,
        obsWeaker_refl obs⟩

theorem settleFold_mapWeaker (cands : List MinCandidate) :
    ∀ st, MapWeaker (cands.foldl settleStep st).2.1 st.2.1 := by
  induction cands with
  | nil => intro st; exact mapWeaker_refl _
  | cons c cs ih =>
    intro st
    simp only [List.foldl_cons]
    exact mapWeaker_trans (settleStep_mapWeaker st c) (ih (settleStep st c))

theorem settleStep_cash_inv (st : List Debt × ObsMap × ℚ × List (Nat × ℚ))
    (cand : MinCandidate) :
    (settleStep st cand).2.2.1 +
      (((settleStep st cand).2.2.2).map Prod.snd).sum =
    st.2.2.1 + ((st.2.2.2).map Prod.snd).sum := by
  unfold settleStep
  cases hd : st.1.get? cand.idx with
  | none => rfl
  | some debt =>
    simp only [List.map_append, List.sum_append, List.map_cons,
      List.sum_cons, List.map_nil, List.sum_nil]
    rw [settleDebt_cash]
    ring

theorem settleFold_cash_inv (cands : List MinCandidate) :
    ∀ st, (cands.foldl settleStep st).2.2.1 +
      (((cands.foldl settleStep st).2.2.2).map Prod.snd).sum =
    st.2.2.1 + ((st.2.2.2).map Prod.snd).sum := by
  induction cands with
  | nil => intro st; rfl
  | cons c cs ih =>
    intro st
    simp only [List.foldl_cons]
    rw [ih (settleStep st c), settleStep_cash_inv]

theorem settleStep_cash_le (st : List Debt × ObsMap × ℚ × List (Nat × ℚ))
    (cand : MinCandidate) : (settleStep st cand).2.2.1 ≤ st.2.2.1 := by
  unfold settleStep
  cases hd : st.1.get? cand.idx with
  | none => exact le_refl _
  | some debt => exact settleDebt_cash_le _ _ _

theorem settleStep_cash_nonneg (st : List Debt × ObsMap × ℚ × List (Nat × ℚ))
    (cand : MinCandidate) (h : 0 ≤ st.2.2.1) :
    0 ≤ (settleStep st cand).2.2.1 := by
  unfold settleStep
  cases hd : st.1.get? cand.idx with
  | none => exact h
  | some debt => exact settleDebt_cash_nonneg _ _ _ h

theorem settleFold_cash_le (cands : List MinCandidate) :
    ∀ st, (cands.foldl settleStep st).2.2.1 ≤ st.2.2.1 := by
  induction cands with
  | nil => intro st; exact le_refl _
  | cons c cs ih =>
    intro st
    simp only [List.foldl_cons]
    exact le_trans (ih (settleStep st c)) (settleStep_cash_le st c)

theorem settleFold_cash_nonneg (cands : List MinCandidate) :
    ∀ st, 0 ≤ st.2.2.1 → 0 ≤ (cands.foldl settleStep st).2.2.1 := by
  induction cands with
  | nil => intro st h; exact h
  | cons c cs ih =>
    intro st h
    simp only [List.foldl_cons]
    exact ih (settleStep st c) (settleStep_cash_nonneg st c h)

theorem settleStep_balances_nonneg
    (st : List Debt × ObsMap × ℚ × List (Nat × ℚ)) (cand : MinCandidate)
    (h : ∀ (j : Nat) (d : Debt), st.1[j]? = some d → 0 ≤ d.balance) :
    ∀ (j : Nat) (d : Debt), (settleStep st cand).1[j]? = some d →
      0 ≤ d.balance := by
  unfold settleStep
  cases hd : st.1.get? cand.idx with
  | none => exact h
  | some debt =>
    intro j d hj
    simp only [List.getElem?_set] at hj
    by_cases he : cand.idx = j
    · rw [if_pos he] at hj
      by_cases hlt : cand.idx < st.1.length
      · rw [if_pos hlt] at hj
        injection hj with he2
        rw [← he2]
        refine settleDebt_balance_nonneg _ _ _ ?_
        refine h cand.idx debt ?_
        rw [← List.get?_eq_getElem?]
        exact hd
      · rw [if_neg hlt] at hj; exact absurd hj (by simp)
    · rw [if_neg he] at hj
      exact h j d hj

theorem settleFold_balances_nonneg (cands : List MinCandidate) :
    ∀ st, (∀ (j : Nat) (d : Debt), st.1[j]? = some d → 0 ≤ d.balance) →
    ∀ (j : Nat) (d : Debt),
      (cands.foldl settleStep st).1[j]? = some d → 0 ≤ d.balance := by
  induction cands with
  | nil => intro st h; exact h
  | cons c cs ih =>
    intro st h
    simp only [List.foldl_cons]
    exact ih (settleStep st c) (settleStep_balances_nonneg st c h)

theorem settleStep_untouched (st : List Debt × ObsMap × ℚ × List (Nat × ℚ))
    (cand : MinCandidate) (j : Nat) (h : cand.idx ≠ j) :
    (settleStep st cand).1[j]? = st.1[j]? := by
  unfold settleStep
  cases hd : st.1.get? cand.idx with
  | none => rfl
  | some debt => exact List.getElem?_set_ne h

theorem settleFold_untouched (cands : List MinCandidate) :
    ∀ st (j : Nat), (∀ c ∈ cands, c.idx ≠ j) →
    (cands.foldl settleStep st).1[j]? = st.1[j]? := by
  induction cands with
  | nil => intro st j _; rfl
  | cons c cs ih =>
    intro st j h
    simp only [List.foldl_cons]
    rw [ih (settleStep st c) j (fun x hx => h x (List.mem_cons_of_mem _ hx))]
    exact settleStep_untouched st c j (h c (List.mem_cons_self _ _))

theorem settleStep_paid_nonneg (st : List Debt × ObsMap × ℚ × List (Nat × ℚ))
    (cand : MinCandidate) (h : ∀ pr ∈ st.2.2.2, 0 ≤ pr.2) :
    ∀ pr ∈ (settleStep st cand).2.2.2, 0 ≤ pr.2 := by
  unfold settleStep
  cases hd : st.1.get? cand.idx with
  | none => exact h
  | some debt =>
    intro pr hpr
    simp only [List.mem_append, List.mem_cons, List.not_mem_nil,
      or_false] at hpr
    rcases hpr with hpr | hpr
    · exact h pr hpr
    · rw [hpr]
      exact settleDebt_paid_nonneg _ _ _

theorem settleFold_paid_nonneg (cands : List MinCandidate) :
    ∀ st, (∀ pr ∈ st.2.2.2, 0 ≤ pr.2) →
    ∀ pr ∈ (cands.foldl settleStep st).2.2.2, 0 ≤ pr.2 := by
  induction cands with
  | nil => intro st h; exact h
  | cons c cs ih =>
    intro st h
    simp only [List.foldl_cons]
    exact ih (settleStep st c) (settleStep_paid_nonneg st c h)

/-! ## Characterization of the settlement selection -/

theorem mem_debtsForMin {debts : List Debt} {m : ObsMap} {c : MinCandidate}
    (hc : c ∈ debtsForMin debts m) :
    ∃ d, debts[c.idx]? = some d ∧ c.debtId = d.id ∧ 1/2 < d.balance ∧
      ∃ ob ∈ (lookupObs m d.id).getD [], 1/2 < ob.amountRemaining := by
  unfold debtsForMin at hc
  obtain ⟨⟨i, d⟩, hmem, hf⟩ := List.mem_filterMap.mp hc
  simp only at hf
  rcases hact : ((lookupObs m d.id).getD []).filter
      (fun o => decide (1/2 < o.amountRemaining)) with - | ⟨o0, rest⟩ <;>
    rw [hact] at hf <;> dsimp only at hf
  · simp at hf
  · by_cases hb : d.balance ≤ (1/2 : ℚ)
    · rw [if_pos hb] at hf
      simp at hf
    · rw [if_neg hb] at hf
      have hcval : c.idx = i ∧ c.debtId = d.id := by
        injection hf with e
        rw [← e]
        exact ⟨rfl, rfl⟩
      have ho0 : o0 ∈ ((lookupObs m d.id).getD []).filter
          (fun o => decide (1/2 < o.amountRemaining)) := by
        rw [hact]; exact List.mem_cons_self _ _
      obtain ⟨hin, hpred⟩ := List.mem_filter.mp ho0
      refine ⟨d, ?_, hcval.2, not_le.mp hb, o0, hin, by simpa using hpred⟩
      rw [hcval.1]
      exact List.mem_enum_iff_getElem?.mp hmem

theorem debtsForMin_complete {debts : List Debt} {m : ObsMap} {i : Nat}
    {d : Debt} (hd : debts[i]? = some d) (hb : 1/2 < d.balance)
    {ob : Obligation} (hob : ob ∈ (lookupObs m d.id).getD [])
    (hrem : 1/2 < ob.amountRemaining) :
    ∃ c ∈ debtsForMin debts m, c.idx = i ∧ c.debtId = d.id := by
  have hmem : (i, d) ∈ debts.enum := List.mem_enum_iff_getElem?.mpr hd
  have hactive : ob ∈ ((lookupObs m d.id).getD []).filter
      (fun o => decide (1/2 < o.amountRemaining)) :=
    List.mem_filter.mpr ⟨hob, by simpa using hrem⟩
  rcases hact : ((lookupObs m d.id).getD []).filter
      (fun o => decide (1/2 < o.amountRemaining)) with - | ⟨o0, rest⟩
  · rw [hact] at hactive; simp at hactive
  · refine ⟨⟨i, d.id,
      (o0 :: rest).foldl
        (fun mn o => if o.dueDate.key < mn then o.dueDate.key else mn)
        o0.dueDate.key,
      ((o0 :: rest).map Obligation.amountRemaining).sum⟩,
      List.mem_filterMap.mpr ⟨(i, d), hmem, ?_⟩, rfl, rfl⟩
    simp only
    rw [hact]
    dsimp only
    rw [if_neg (not_le.mpr hb)]

/-! ## Top-level settlement lemmas -/

theorem settleOrder_sorted (debts : List Debt) (m : ObsMap) :
    List.Sorted minCandRel (settleOrder debts m) :=
  List.sorted_insertionSort minCandRel (debtsForMin debts m)

theorem settleOrder_perm (debts : List Debt) (m : ObsMap) :
    (settleOrder debts m).Perm (debtsForMin debts m) :=
  List.perm_insertionSort minCandRel (debtsForMin debts m)

theorem settleMins_cash_eq (debts : List Debt) (m : ObsMap) (cash : ℚ) :
    (settleMins debts m cash).2.2.1 =
      cash - (((settleMins debts m cash).2.2.2).map Prod.snd).sum := by
  have := settleFold_cash_inv (settleOrder debts m) (debts, m, cash, [])
  unfold settleMins
  simp only [List.map_nil, List.sum_nil] at this
  linarith [this]

theorem settleMins_cash_le (debts : List Debt) (m : ObsMap) (cash : ℚ) :
    (settleMins debts m cash).2.2.1 ≤ cash :=
  settleFold_cash_le (settleOrder debts m) (debts, m, cash, [])

theorem settleMins_cash_nonneg (debts : List Debt) (m : ObsMap) (cash : ℚ)
    (h : 0 ≤ cash) : 0 ≤ (settleMins debts m cash).2.2.1 :=
  settleFold_cash_nonneg (settleOrder debts m) (debts, m, cash, []) h

theorem settleMins_balances_nonneg (debts : List Debt) (m : ObsMap)
    (cash : ℚ)
    (h : ∀ (j : Nat) (d : Debt), debts[j]? = some d → 0 ≤ d.balance) :
    ∀ (j : Nat) (d : Debt), (settleMins debts m cash).1[j]? = some d →
      0 ≤ d.balance :=
  settleFold_balances_nonneg (settleOrder debts m) (debts, m, cash, []) h

theorem settleMins_untouched (debts : List Debt) (m : ObsMap) (cash : ℚ)
    (j : Nat) (h : ∀ c ∈ settleOrder debts m, c.idx ≠ j) :
    (settleMins debts m cash).1[j]? = debts[j]? :=
  settleFold_untouched (settleOrder debts m) (debts, m, cash, []) j h

theorem settleMins_mapWeaker (debts : List Debt) (m : ObsMap) (cash : ℚ) :
    MapWeaker (settleMins debts m cash).2.1 m :=
  settleFold_mapWeaker (settleOrder debts m) (debts, m, cash, [])

theorem settleMins_paid_nonneg (debts : List Debt) (m : ObsMap) (cash : ℚ) :
    ∀ pr ∈ (settleMins debts m cash).2.2.2, 0 ≤ pr.2 :=
  settleFold_paid_nonneg (settleOrder debts m) (debts, m, cash, [])
    (by intro pr hpr; simp at hpr)

/-! ## Cash accounting of the later phases -/

theorem applyStrategy_cash_eq (s : String) (cash : ℚ) (debts : List Debt) :
    (applyStrategy s cash debts).2.1 =
      cash - (((applyStrategy s cash debts).2.2).map Prod.snd).sum := by
  unfold applyStrategy
  by_cases h1 : cash ≤ 1
  · rw [if_pos h1]; simp
  · rw [if_neg h1]
    by_cases h2 : s = "flat" ∧
        0 < ((List.filter (fun p => decide (1/2 < p.2.balance))
          debts.enum).map (fun p => p.2.balance)).sum
    · rw [if_pos h2]
      exact payFlat_cash_sub _ _ _
    · rw [if_neg h2]
      exact paySequential_cash_sub _ _

theorem fundGoals_cash_eq (cash dr : ℚ) (goals : List Goal) :
    (fundGoals cash dr goals).2.1 =
      cash - (((fundGoals cash dr goals).2.2).map Prod.snd).sum := by
  unfold fundGoals
  by_cases h : 1 < cash ∧ dr ≤ 5 ∧ 0 < goals.length
  · rw [if_pos h]
    exact payGoals_cash_sub _ _
  · rw [if_neg h]; simp

theorem fundGoals_no_save_of_debt (cash dr : ℚ) (goals : List Goal)
    (h : 5 < dr) : fundGoals cash dr goals = (goals, cash, []) := by
  unfold fundGoals
  rw [if_neg]
  rintro ⟨-, h2, -⟩
  linarith

theorem accrueAll_charge_eq (debts : List Debt) :
    (accrueAll debts).2 = (debts.map semiMonthlyCharge).sum := by
  unfold accrueAll
  dsimp only
  congr 1
  refine List.map_congr_left ?_
  intro d _
  unfold accrueDebt semiMonthlyCharge
  by_cases h : d.balance ≤ 1/2
  · rw [if_pos h, if_pos h]
  · rw [if_neg h, if_neg h]

/-! ## Decompositions of one loop iteration

These exhibit the intermediate values `stepPeriod` threads; the
elaborator extracts each one by definitional unfolding. -/

theorem stepPeriod_row (input : SimInput) (st : SimState) :
    ∃ row : PeriodRow,
      (stepPeriod input st).results = st.results ++ [row] ∧
      row.periodEnd = st.currentDate ∧
      row.income = (gatherEvents input.startDate st.prevPeriodEnd
        st.currentDate input.events (input.grossIncome - input.deductions.sum)
        (input.fixedExpenses.sum + input.discretionary)).1 ∧
      row.expenses = (gatherEvents input.startDate st.prevPeriodEnd
        st.currentDate input.events (input.grossIncome - input.deductions.sum)
        (input.fixedExpenses.sum + input.discretionary)).2.1 ∧
      row.includedEvents = (gatherEvents input.startDate st.prevPeriodEnd
        st.currentDate input.events (input.grossIncome - input.deductions.sum)
        (input.fixedExpenses.sum + input.discretionary)).2.2 ∧
      row.endBalance = (stepPeriod input st).debtRemaining ∧
      row.pocket = (stepPeriod input st).carryOver ∧
      (stepPeriod input st).prevPeriodEnd = some st.currentDate ∧
      (stepPeriod input st).currentDate = advanceDate st.currentDate ∧
      (stepPeriod input st).iteration = st.iteration + 1 :=
  ⟨_, rfl, rfl, rfl, rfl, rfl, rfl, rfl, rfl, rfl, rfl⟩

theorem stepPeriod_goals_decomp (input : SimInput) (st : SimState) :
    ∃ c : ℚ,
      (stepPeriod input st).goals =
        (fundGoals c ((stepPeriod input st).debtRemaining) st.goals).1 ∧
      ∃ row : PeriodRow, (stepPeriod input st).results = st.results ++ [row] ∧
        row.savingDetails =
          (fundGoals c ((stepPeriod input st).debtRemaining) st.goals).2.2 :=
  ⟨_, rfl, _, rfl, rfl⟩

/-- The carry-over a period hands on, expressed through the appended
row: `max 0` of the cash remaining after cash aggregation, minimum
settlement, strategy allocation and goal funding. -/
theorem stepPeriod_pocket_eq (input : SimInput) (st : SimState) :
    ∃ row : PeriodRow,
      (stepPeriod input st).results = st.results ++ [row] ∧
      (stepPeriod input st).carryOver = row.pocket ∧
      row.pocket = max 0 (rowRemainingCash row) := by
  refine ⟨_, rfl, rfl, ?_⟩
  unfold rowRemainingCash
  dsimp only
  rw [fundGoals_cash_eq, applyStrategy_cash_eq, settleMins_cash_eq]

theorem stepPeriod_totalInterestPaid (input : SimInput) (st : SimState) :
    (stepPeriod input st).totalInterestPaid =
      st.totalInterestPaid + (accrueAll st.debts).2 := rfl

theorem stepPeriod_results_length (input : SimInput) (st : SimState) :
    (stepPeriod input st).results.length = st.results.length + 1 := by
  obtain ⟨row, hres, -⟩ := stepPeriod_row input st
  rw [hres]
  simp

/-! ## The main loop -/

theorem simLoop_iteration_le (input : SimInput) (fuel : Nat) :
    ∀ st : SimState,
      (simLoop input fuel st).iteration ≤ st.iteration + fuel := by
  induction fuel with
  | zero => intro st; simp [simLoop]
  | succ f ih =>
    intro st
    unfold simLoop
    by_cases h : 5 < st.debtRemaining ∨ 5 < st.goalRemaining
    · rw [if_pos h]
      have := ih (stepPeriod input st)
      have hstep : (stepPeriod input st).iteration = st.iteration + 1 := rfl
      omega
    · rw [if_neg h]
      omega

theorem simLoop_exit (input : SimInput) (fuel : Nat) :
    ∀ st : SimState,
      ((simLoop input fuel st).debtRemaining ≤ 5 ∧
        (simLoop input fuel st).goalRemaining ≤ 5) ∨
      (simLoop input fuel st).iteration = st.iteration + fuel := by
  induction fuel with
  | zero => intro st; right; simp [simLoop]
  | succ f ih =>
    intro st
    unfold simLoop
    by_cases h : 5 < st.debtRemaining ∨ 5 < st.goalRemaining
    · rw [if_pos h]
      rcases ih (stepPeriod input st) with h2 | h2
      · exact Or.inl h2
      · right
        rw [h2]
        have hstep : (stepPeriod input st).iteration = st.iteration + 1 := rfl
        omega
    · rw [if_neg h]
      push_neg at h
      exact Or.inl ⟨h.1, h.2⟩

theorem simLoop_results_len (input : SimInput) (fuel : Nat) :
    ∀ st : SimState,
      (simLoop input fuel st).results.length + st.iteration =
        st.results.length + (simLoop input fuel st).iteration := by
  induction fuel with
  | zero => intro st; simp [simLoop]
  | succ f ih =>
    intro st
    unfold simLoop
    by_cases h : 5 < st.debtRemaining ∨ 5 < st.goalRemaining
    · rw [if_pos h]
      have h2 := ih (stepPeriod input st)
      have hstep : (stepPeriod input st).iteration = st.iteration + 1 := rfl
      have hlen := stepPeriod_results_length input st
      omega
    · rw [if_neg h]

/-- C3: the simulation loop executes at most 120 iterations (one
result row per iteration), and when it stops short of the cap both the
aggregate debt and the aggregate goal shortfall are at or below 5; the
run is a total function, so it always terminates. -/
theorem c3_loop_cap (input : SimInput) :
    (runSimulation input).iteration ≤ 120 ∧
    (runSimulation input).results.length = (runSimulation input).iteration ∧
    (((runSimulation input).debtRemaining ≤ 5 ∧
        (runSimulation input).goalRemaining ≤ 5) ∨
      (runSimulation input).iteration = 120) := by
  have h1 := simLoop_iteration_le input 120 (initState input)
  have h2 := simLoop_exit input 120 (initState input)
  have h3 := simLoop_results_len input 120 (initState input)
  have e1 : (initState input).iteration = 0 := rfl
  have e2 : (initState input).results.length = 0 := rfl
  unfold runSimulation
  rw [e1] at h1 h2
  rw [e1, e2] at h3
  refine ⟨by omega, by omega, ?_⟩
  rcases h2 with h2 | h2
  · exact Or.inl h2
  · exact Or.inr (by omega)

/-- C5 (amended): the carry-over handed to the next period is
`max(0, r)` where `r` is the cash remaining after the period's cash
aggregation, minimum-payment settlement, strategy allocation and goal
funding; a period ending with negative cash therefore hands on 0, not
the negative remainder. -/
theorem c5_carryover_amended (input : SimInput) (st : SimState) :
    ∃ row : PeriodRow,
      (stepPeriod input st).results = st.results ++ [row] ∧
      (stepPeriod input st).carryOver = row.pocket ∧
      row.pocket = max 0 (rowRemainingCash row) ∧
      (rowRemainingCash row < 0 → row.pocket ≠ rowRemainingCash row) := by
  obtain ⟨row, hres, hc, hp⟩ := stepPeriod_pocket_eq input st
  refine ⟨row, hres, hc, hp, ?_⟩
  intro hneg he
  rw [hp] at he
  have : (0 : ℚ) ≤ max 0 (rowRemainingCash row) := le_max_left _ _
  rw [he] at this
  linarith

/-- C6: goal funding is gated on the aggregate debt balance measured
after the period's payments and cleanup: when that balance exceeds 5,
the goals are untouched and the period logs no goal contribution. -/
theorem c6_goal_gate (input : SimInput) (st : SimState)
    (h : 5 < (stepPeriod input st).debtRemaining) :
    (stepPeriod input st).goals = st.goals ∧
    ∃ row : PeriodRow, (stepPeriod input st).results = st.results ++ [row] ∧
      row.savingDetails = [] := by
  obtain ⟨c, hg, row, hres, hsave⟩ := stepPeriod_goals_decomp input st
  rw [fundGoals_no_save_of_debt _ _ _ h] at hg hsave
  exact ⟨hg, row, hres, hsave⟩

set_option maxRecDepth 3000 in
/-- Witness for C6 at a period that leaves a 100 balance standing. -/
theorem c6_goal_gate_witness :
    (stepPeriod c6Input (initState c6Input)).goals =
      (initState c6Input).goals ∧
    ∃ row : PeriodRow,
      (stepPeriod c6Input (initState c6Input)).results =
        (initState c6Input).results ++ [row] ∧
      row.savingDetails = [] :=
  c6_goal_gate c6Input (initState c6Input) (by with_unfolding_all decide)

/-- C9 (amended): the scalar the engine reports as total interest paid
accumulates, every period, the interest-plus-surcharge charges accrued
onto the balances, whether or not they are ever paid; it starts at 0. -/
theorem c9_total_is_accrued (input : SimInput) (st : SimState) :
    (stepPeriod input st).totalInterestPaid =
      st.totalInterestPaid + (st.debts.map semiMonthlyCharge).sum ∧
    (initState input).totalInterestPaid = 0 := by
  constructor
  · show st.totalInterestPaid + (accrueAll st.debts).2 = _
    rw [accrueAll_charge_eq]
  · rfl

/-- C1: the minimum-payment settlement selects exactly the debts that
have an obligation with `amountRemaining > 0.5` and balance above the
0.5 epsilon; it processes them in ascending order of earliest unresolved
due date, ties broken by larger total outstanding minimum; within a
debt the obligations are visited oldest due date first; the cash
decreases by exactly the total paid, never below 0, every remaining
amount only decreases and never below 0, no debt balance becomes
negative, and unselected debts are untouched. -/
theorem c1_min_settlement (debts : List Debt) (m : ObsMap) (cash : ℚ)
    (hcash : 0 ≤ cash)
    (hbal : ∀ (j : Nat) (d : Debt), debts[j]? = some d → 0 ≤ d.balance) :
    (∀ c ∈ debtsForMin debts m, ∃ d, debts[c.idx]? = some d ∧
      c.debtId = d.id ∧ 1/2 < d.balance ∧
      ∃ ob ∈ (lookupObs m d.id).getD [], 1/2 < ob.amountRemaining) ∧
    (∀ (i : Nat) (d : Debt), debts[i]? = some d → 1/2 < d.balance →
      (∃ ob ∈ (lookupObs m d.id).getD [], 1/2 < ob.amountRemaining) →
      ∃ c ∈ debtsForMin debts m, c.idx = i ∧ c.debtId = d.id) ∧
    List.Sorted minCandRel (settleOrder debts m) ∧
    (settleOrder debts m).Perm (debtsForMin debts m) ∧
    (∀ obs : List Obligation, List.Sorted obDueRel (sortObsByDue obs) ∧
      (sortObsByDue obs).Perm obs.enum) ∧
    (settleMins debts m cash).2.2.1 =
      cash - (((settleMins debts m cash).2.2.2).map Prod.snd).sum ∧
    0 ≤ (settleMins debts m cash).2.2.1 ∧
    (settleMins debts m cash).2.2.1 ≤ cash ∧
    (∀ (j : Nat) (d : Debt), (settleMins debts m cash).1[j]? = some d →
      0 ≤ d.balance) ∧
    (∀ j : Nat, (∀ c ∈ settleOrder debts m, c.idx ≠ j) →
      (settleMins debts m cash).1[j]? = debts[j]?) ∧
    MapWeaker (settleMins debts m cash).2.1 m := by
  refine ⟨fun c hc => mem_debtsForMin hc, ?_,
    settleOrder_sorted debts m, settleOrder_perm debts m,
    fun obs => ⟨sortObsByDue_sorted obs, sortObsByDue_perm obs⟩,
    settleMins_cash_eq debts m cash,
    settleMins_cash_nonneg debts m cash hcash,
    settleMins_cash_le debts m cash,
    settleMins_balances_nonneg debts m cash hbal,
    fun j h => settleMins_untouched debts m cash j h,
    settleMins_mapWeaker debts m cash⟩
  rintro i d hd hb ⟨ob, hob, hrem⟩
  exact debtsForMin_complete hd hb hob hrem

/-- Witness for C1 at a concrete settlement state. -/
theorem c1_min_settlement_witness :
    0 ≤ (settleMins [⟨1, 100, 50, none, 10, some 10⟩]
      [(1, [⟨⟨2025, 0, 10⟩, 10, 10, 5⟩])] 7).2.2.1 :=
  (c1_min_settlement [⟨1, 100, 50, none, 10, some 10⟩]
    [(1, [⟨⟨2025, 0, 10⟩, 10, 10, 5⟩])] 7 (by norm_num)
    (by
      intro j d hj
      rcases j with - | n
      · simp only [List.getElem?_cons_zero] at hj
        injection hj with e
        rw [← e]
        norm_num
      · simp at hj)).2.2.2.2.2.2.1

/-! ## Lemmas about the strategy allocation -/

theorem orderedActive_sorted (s : String) (debts : List Debt) :
    List.Sorted (strategyRelOn s) (orderedActive s debts) :=
  List.sorted_insertionSort _ _

theorem orderedActive_perm (s : String) (debts : List Debt) :
    (orderedActive s debts).Perm
      ((debts.enum).filter (fun p => decide (1/2 < p.2.balance))) :=
  List.perm_insertionSort _ _

theorem active_fst_functional {debts : List Debt} {j : Nat} {d : Debt}
    (h : (j, d) ∈ (debts.enum).filter (fun p => decide (1/2 < p.2.balance))) :
    debts[j]? = some d ∧ 1/2 < d.balance := by
  obtain ⟨hmem, hp⟩ := List.mem_filter.mp h
  exact ⟨List.mem_enum_iff_getElem?.mp hmem, by simpa using hp⟩

theorem applyStrategy_gate (s : String) (cash : ℚ) (debts : List Debt)
    (h : cash ≤ 1) : applyStrategy s cash debts = (debts, cash, []) := by
  unfold applyStrategy
  rw [if_pos h]

theorem applyStrategy_log_mem (s : String) (cash : ℚ) (debts : List Debt) :
    ∀ pr ∈ (applyStrategy s cash debts).2.2, 0 < pr.2 ∧
      ∃ d, debts[pr.1]? = some d ∧ 1/2 < d.balance ∧ pr.2 ≤ d.balance := by
  intro pr hpr
  unfold applyStrategy at hpr
  by_cases h1 : cash ≤ 1
  · rw [if_pos h1] at hpr; simp at hpr
  · rw [if_neg h1] at hpr
    by_cases h2 : s = "flat" ∧
        0 < ((List.filter (fun p => decide (1/2 < p.2.balance))
          debts.enum).map (fun p => p.2.balance)).sum
    · rw [if_pos h2] at hpr
      dsimp only at hpr
      rcases pr with ⟨i, p⟩
      obtain ⟨hp, d, hd, hle⟩ := payFlat_pays_mem _ _ _ hpr
      obtain ⟨hget, hb⟩ := active_fst_functional hd
      exact ⟨hp, d, hget, hb, hle⟩
    · rw [if_neg h2] at hpr
      dsimp only at hpr
      rcases pr with ⟨i, p⟩
      obtain ⟨hp, d, hd, hle⟩ := paySequential_pays_mem _ _ hpr
      have hd2 := (orderedActive_perm s debts).subset hd
      obtain ⟨hget, hb⟩ := active_fst_functional hd2
      exact ⟨hp, d, hget, hb, hle⟩

theorem applyStrategy_balances (s : String) (cash : ℚ) (debts : List Debt)
    (j : Nat) (d : Debt) (hd : debts[j]? = some d) :
    ∃ d2, (applyStrategy s cash debts).1[j]? = some d2 ∧
      d2.balance ≤ d.balance ∧ (0 ≤ d.balance → 0 ≤ d2.balance) := by
  have hlog := applyStrategy_log_mem s cash debts
  rcases hres : applyStrategy s cash debts with ⟨debts2, cash2, log⟩
  rw [hres] at hlog
  dsimp only at hlog ⊢
  have hdebts2 : debts2 = applyStrategyLog debts log ∨ debts2 = debts := by
    unfold applyStrategy at hres
    by_cases h1 : cash ≤ 1
    · rw [if_pos h1] at hres
      right
      injection hres with e1 e2
      exact e1.symm
    · rw [if_neg h1] at hres
      by_cases h2 : s = "flat" ∧
          0 < ((List.filter (fun p => decide (1/2 < p.2.balance))
            debts.enum).map (fun p => p.2.balance)).sum
      · rw [if_pos h2] at hres
        left
        injection hres with e1 e2
        injection e2 with e3 e4
        rw [← e1, ← e4]
      · rw [if_neg h2] at hres
        left
        injection hres with e1 e2
        injection e2 with e3 e4
        rw [← e1, ← e4]
  rcases hdebts2 with rfl | rfl
  · rw [applyStrategyLog_getElem?, hd]
    cases hl : log.lookup j with
    | none => exact ⟨d, by simp [hl], le_refl _, fun h => h⟩
    | some amt =>
      obtain ⟨hp, d3, hd3, hb3, hle3⟩ := hlog (j, amt) (mem_of_lookup_eq_some hl)
      rw [hd] at hd3
      obtain rfl : d = d3 := by injection hd3
      refine ⟨{ d with balance := d.balance - amt }, by simp [hl], ?_, ?_⟩
      · dsimp only
        linarith
      · intro h
        dsimp only
        linarith
  · exact ⟨d, hd, le_refl _, fun h => h⟩

theorem applyStrategy_first (s : String) (cash : ℚ) (debts : List Debt)
    (h1 : 1 < cash) (hs : s ≠ "flat") (i : Nat) (d : Debt)
    (rest : List (Nat × Debt))
    (hord : orderedActive s debts = (i, d) :: rest) :
    (applyStrategy s cash debts).2.2.head? = some (i, min cash d.balance) ∧
    ∀ p ∈ (debts.enum).filter (fun p => decide (1/2 < p.2.balance)),
      strategyRel s d p.2 := by
  have hdmem : (i, d) ∈ orderedActive s debts := by
    rw [hord]; exact List.mem_cons_self _ _
  have hdact := active_fst_functional ((orderedActive_perm s debts).subset hdmem)
  constructor
  · unfold applyStrategy
    rw [if_neg (not_le.mpr h1), if_neg (by rintro ⟨hf, -⟩; exact hs hf)]
    dsimp only
    rw [hord, paySequential_head i d rest cash h1 (by linarith [hdact.2])]
    rfl
  · intro p hp
    have hmem : p ∈ orderedActive s debts :=
      (orderedActive_perm s debts).mem_iff.mpr hp
    rw [hord] at hmem
    rcases List.mem_cons.mp hmem with rfl | hmem
    · rcases IsTotal.total (r := strategyRel s) d d with h | h <;> exact h
    · exact List.rel_of_sorted_cons (hord ▸ orderedActive_sorted s debts)
        p hmem

/-- C7 (amended): active debts (balance above the 0.5 epsilon) are
ordered by balance ascending under snowball, contractual minimum
descending under highMin, balance descending under reverseSnowball,
and rate descending under avalanche and any unrecognized selector;
allocation only runs when the pool exceeds 1, each logged payment is
positive and capped by the debt's balance, unspent cash returns to the
pool (cash out = cash in minus total logged), and when the pool
exceeds 1 the first payment goes to the head of the strategy order —
the extremal active debt for the selected strategy. -/
theorem c7_strategy_amended (s : String) (cash : ℚ) (debts : List Debt) :
    (orderedActive s debts).Perm
      ((debts.enum).filter (fun p => decide (1/2 < p.2.balance))) ∧
    (s = "snowball" → List.Sorted
      (fun a b : Nat × Debt => a.2.balance ≤ b.2.balance)
      (orderedActive s debts)) ∧
    (s = "highMin" → List.Sorted
      (fun a b : Nat × Debt => b.2.monthlyMin ≤ a.2.monthlyMin)
      (orderedActive s debts)) ∧
    (s = "reverseSnowball" → List.Sorted
      (fun a b : Nat × Debt => b.2.balance ≤ a.2.balance)
      (orderedActive s debts)) ∧
    (s ≠ "snowball" → s ≠ "highMin" → s ≠ "reverseSnowball" →
      List.Sorted (fun a b : Nat × Debt => b.2.rate ≤ a.2.rate)
        (orderedActive s debts)) ∧
    (applyStrategy s cash debts).2.1 =
      cash - (((applyStrategy s cash debts).2.2).map Prod.snd).sum ∧
    (∀ pr ∈ (applyStrategy s cash debts).2.2, 0 < pr.2 ∧
      ∃ d, debts[pr.1]? = some d ∧ 1/2 < d.balance ∧ pr.2 ≤ d.balance) ∧
    (cash ≤ 1 → applyStrategy s cash debts = (debts, cash, [])) ∧
    (∀ (j : Nat) (d : Debt), debts[j]? = some d →
      ∃ d2, (applyStrategy s cash debts).1[j]? = some d2 ∧
        d2.balance ≤ d.balance ∧ (0 ≤ d.balance → 0 ≤ d2.balance)) ∧
    (1 < cash → s ≠ "flat" → ∀ (i : Nat) (d : Debt)
      (rest : List (Nat × Debt)), orderedActive s debts = (i, d) :: rest →
      (applyStrategy s cash debts).2.2.head? = some (i, min cash d.balance) ∧
      ∀ p ∈ (debts.enum).filter (fun p => decide (1/2 < p.2.balance)),
        strategyRel s d p.2) := by
  refine ⟨orderedActive_perm s debts, ?_, ?_, ?_, ?_,
    applyStrategy_cash_eq s cash debts, applyStrategy_log_mem s cash debts,
    applyStrategy_gate s cash debts,
    fun j d hd => applyStrategy_balances s cash debts j d hd,
    fun hc hf i d rest hord =>
      applyStrategy_first s cash debts hc hf i d rest hord⟩
  · intro hsnow
    refine (orderedActive_sorted s debts).imp ?_
    intro a b hab
    unfold strategyRelOn strategyRel at hab
    rwa [if_pos hsnow] at hab
  · intro hhm
    refine (orderedActive_sorted s debts).imp ?_
    intro a b hab
    unfold strategyRelOn strategyRel at hab
    have hsnow : s ≠ "snowball" := by rw [hhm]; decide
    have hav : s ≠ "avalanche" := by rw [hhm]; decide
    rwa [if_neg hsnow, if_neg hav, if_pos hhm] at hab
  · intro hrs
    refine (orderedActive_sorted s debts).imp ?_
    intro a b hab
    unfold strategyRelOn strategyRel at hab
    have hsnow : s ≠ "snowball" := by rw [hrs]; decide
    have hav : s ≠ "avalanche" := by rw [hrs]; decide
    have hhm : s ≠ "highMin" := by rw [hrs]; decide
    rwa [if_neg hsnow, if_neg hav, if_neg hhm, if_pos hrs] at hab
  · intro hsnow hhm hrs
    refine (orderedActive_sorted s debts).imp ?_
    intro a b hab
    unfold strategyRelOn strategyRel at hab
    rw [if_neg hsnow] at hab
    by_cases hav : s = "avalanche"
    · rwa [if_pos hav] at hab
    · rwa [if_neg hav, if_neg hhm, if_neg hrs] at hab

/-! ## Date arithmetic and regulatory-floor facts -/

theorem daysInMonth_bounds (y m : Nat) :
    1 ≤ daysInMonth y m ∧ daysInMonth y m ≤ 31 := by
  unfold daysInMonth
  rcases m with - | - | - | - | - | - | - | - | - | - | - | m <;>
    simp <;> split_ifs <;> omega

theorem getDueDayOrDefault_bounds (d : Debt) :
    1 ≤ getDueDayOrDefault d ∧ getDueDayOrDefault d ≤ 31 := by
  unfold getDueDayOrDefault
  cases hdd : d.dueDay with
  | none => dsimp only; omega
  | some raw =>
    dsimp only
    split_ifs with h
    · have h2 : 1 ≤ raw.toNat := by omega
      omega
    · omega

theorem makeDueDate_valid (y m dueDay : Nat) (hm : m ≤ 11)
    (hd : 1 ≤ dueDay) : ValidYmd (makeDueDate y m dueDay) := by
  obtain ⟨h1, h2⟩ := daysInMonth_bounds y m
  exact ⟨hm, by unfold makeDueDate; dsimp only; omega,
    by unfold makeDueDate; dsimp only; omega⟩

theorem succMonth_le11 (y m : Nat) : (succMonth y m).2 ≤ 11 := by
  unfold succMonth
  split_ifs <;> simp <;> omega

theorem getFirstDueDate_valid (start : Ymd) (debt : Debt)
    (hstart : ValidYmd start) : ValidYmd (getFirstDueDate start debt) := by
  unfold getFirstDueDate
  dsimp only
  split_ifs
  · exact makeDueDate_valid _ _ _ hstart.1 (getDueDayOrDefault_bounds debt).1
  · exact makeDueDate_valid _ _ _ (succMonth_le11 start.year start.month)
      (getDueDayOrDefault_bounds debt).1

theorem succMonth_key_lt (prev : Ymd) (hprev : ValidYmd prev) (y2 m2 : Nat)
    (h : succMonth prev.year prev.month = (y2, m2)) (day2 : Nat)
    (hd2 : 1 ≤ day2) : prev.key < (Ymd.mk y2 m2 day2).key := by
  obtain ⟨hm, hd1, hd31⟩ := hprev
  unfold succMonth at h
  unfold Ymd.key
  split_ifs at h with hroll
  · injection h with e1 e2
    subst e1; subst e2
    dsimp only
    omega
  · injection h with e1 e2
    subst e1; subst e2
    dsimp only
    omega

theorem nextObligation_key_lt (debt : Debt) (lastOb : Obligation)
    (hvalid : ValidYmd lastOb.dueDate) :
    lastOb.dueDate.key < (nextObligation debt lastOb).dueDate.key := by
  unfold nextObligation makeDueDate
  dsimp only
  refine succMonth_key_lt lastOb.dueDate hvalid _ _ rfl _ ?_
  obtain ⟨h1, -⟩ := daysInMonth_bounds
    (succMonth lastOb.dueDate.year lastOb.dueDate.month).1
    (succMonth lastOb.dueDate.year lastOb.dueDate.month).2
  obtain ⟨h2, -⟩ := getDueDayOrDefault_bounds debt
  omega

theorem nextObligation_valid (debt : Debt) (lastOb : Obligation) :
    ValidYmd (nextObligation debt lastOb).dueDate := by
  unfold nextObligation
  dsimp only
  exact makeDueDate_valid _ _ _
    (succMonth_le11 lastOb.dueDate.year lastOb.dueDate.month)
    (getDueDayOrDefault_bounds debt).1

theorem banxico_baseMin_nonneg (b r : ℚ) (cl : Option ℚ) :
    0 ≤ (computeBanxicoMonthlyComponents b r cl).baseMin := by
  unfold computeBanxicoMonthlyComponents
  split_ifs with h
  · exact le_refl 0
  · push_neg at h
    obtain ⟨hb, hr⟩ := h
    dsimp only
    have hmi : 0 ≤ (b * (r / 100)) / 12 := by positivity
    have hiva : 0 ≤ ((b * (r / 100)) / 12) * (16 / 100) := by positivity
    have hA : 0 ≤ (15 / 1000) * b + (b * (r / 100)) / 12 +
        ((b * (r / 100)) / 12) * (16 / 100) := by positivity
    have hB : 0 ≤ (match cl with
        | some c => if 0 < c then (125 / 10000) * c else 0
        | none => (0 : ℚ)) := by
      rcases cl with - | c
      · exact le_refl 0
      · dsimp only
        split_ifs with hc
        · positivity
        · exact le_refl 0
    split_ifs with hcap
    · positivity
    · exact le_trans hA (le_max_left _ _)

theorem bindingMonthlyMin_nonneg (u base : ℚ) (hbase : 0 ≤ base) :
    0 ≤ bindingMonthlyMin u base := by
  unfold bindingMonthlyMin
  split_ifs with h
  · exact le_trans hbase (le_max_right _ _)
  · exact hbase

/-! ## The obligation-queue invariant (seed, rollover, settlement) -/

theorem upsertObs_values {m : ObsMap} {id : Nat} {v : List Obligation}
    {e : Nat × List Obligation} (he : e ∈ upsertObs m id v) :
    e.2 = v ∨ e ∈ m := by
  unfold upsertObs at he
  split_ifs at he
  · unfold updateObs at he
    obtain ⟨p, hp, hq⟩ := List.mem_map.mp he
    by_cases hk : p.1 = id
    · have hb : (p.1 == id) = true := beq_iff_eq.mpr hk
      rw [if_pos hb] at hq
      left
      rw [← hq]
    · have hb : ¬((p.1 == id) = true) := by simpa using hk
      rw [if_neg hb] at hq
      right
      rw [← hq]
      exact hp
  · rcases List.mem_append.mp he with h | h
    · exact Or.inr h
    · left
      simp only [List.mem_singleton] at h
      rw [h]

theorem seedObligations_invariant (start : Ymd) (debts : List Debt)
    (hstart : ValidYmd start) :
    ∀ e ∈ seedObligations start debts, ObsInvariant e.2 := by
  unfold seedObligations
  suffices h : ∀ (m0 : ObsMap), (∀ e ∈ m0, ObsInvariant e.2) →
      ∀ e ∈ debts.foldl (fun m debt =>
        if debt.balance ≤ 1/2 then m
        else
          upsertObs m debt.id
            [⟨getFirstDueDate start debt,
              bindingMonthlyMin debt.monthlyMin
                (computeBanxicoMonthlyComponents debt.balance debt.rate
                  debt.creditLimit).baseMin,
              bindingMonthlyMin debt.monthlyMin
                (computeBanxicoMonthlyComponents debt.balance debt.rate
                  debt.creditLimit).baseMin,
              (computeBanxicoMonthlyComponents debt.balance debt.rate
                debt.creditLimit).baseMin⟩]) m0, ObsInvariant e.2 by
    intro e he
    exact h [] (by simp) e he
  induction debts with
  | nil => intro m0 hm0 e he; exact hm0 e he
  | cons debt rest ih =>
    intro m0 hm0 e he
    simp only [List.foldl_cons] at he
    refine ih _ ?_ e he
    intro e2 he2
    by_cases hb : debt.balance ≤ (1/2 : ℚ)
    · rw [if_pos hb] at he2
      exact hm0 e2 he2
    · rw [if_neg hb] at he2
      rcases upsertObs_values he2 with h | h
      · rw [h]
        refine ⟨?_, ?_⟩
        · intro ob hob
          simp only [List.mem_singleton] at hob
          rw [hob]
          refine ⟨?_, le_refl _, ?_⟩
          · exact bindingMonthlyMin_nonneg _ _
              (banxico_baseMin_nonneg _ _ _)
          · exact getFirstDueDate_valid start debt hstart
        · simp
      · exact hm0 e2 h

theorem rolloverAux_invariant (periodEnd : Ymd) (debt : Debt) :
    ∀ (fuel : Nat) (obs : List Obligation) (lastOb : Obligation),
      ObsInvariant obs →
      (∀ ob ∈ obs, ob.dueDate.key ≤ lastOb.dueDate.key) →
      ValidYmd lastOb.dueDate →
      ObsInvariant (rolloverAux periodEnd debt fuel obs lastOb) := by
  intro fuel
  induction fuel with
  | zero => intro obs lastOb hinv _ _; exact hinv
  | succ f ih =>
    intro obs lastOb hinv hle hvalid
    unfold rolloverAux
    split_ifs with hcond
    · refine ih _ _ ⟨?_, ?_⟩ ?_ ?_
      · intro ob hob
        rcases List.mem_append.mp hob with h | h
        · exact hinv.1 ob h
        · simp only [List.mem_singleton] at h
          rw [h]
          refine ⟨?_, le_refl _, nextObligation_valid debt lastOb⟩
          unfold nextObligation
          dsimp only
          exact bindingMonthlyMin_nonneg _ _ (banxico_baseMin_nonneg _ _ _)
      · rw [List.pairwise_append]
        refine ⟨hinv.2, by simp, ?_⟩
        intro a ha b hb
        simp only [List.mem_singleton] at hb
        rw [hb]
        have h1 := hle a ha
        have h2 := nextObligation_key_lt debt lastOb hvalid
        omega
      · intro ob hob
        rcases List.mem_append.mp hob with h | h
        · have h1 := hle ob h
          have h2 := nextObligation_key_lt debt lastOb hvalid
          omega
        · simp only [List.mem_singleton] at h
          rw [h]
      · exact nextObligation_valid debt lastOb
    · exact hinv

theorem sorted_le_getLast {obs : List Obligation}
    (hinv : ObsInvariant obs) {l : Obligation}
    (hl : obs.getLast? = some l) : ∀ ob ∈ obs, ob.dueDate.key ≤
      l.dueDate.key := by
  induction obs with
  | nil => simp at hl
  | cons a t ih =>
    intro ob hob
    rcases ht : t with - | ⟨b, t2⟩
    · subst ht
      simp only [List.getLast?_singleton] at hl
      obtain rfl : a = l := by injection hl
      simp only [List.mem_singleton] at hob
      rw [hob]
    · have hl2 : t.getLast? = some l := by
        rw [ht] at hl ⊢
        rwa [List.getLast?_cons_cons] at hl
      rw [← ht] at *
      have hinv2 : ObsInvariant t :=
        ⟨fun x hx => hinv.1 x (List.mem_cons_of_mem _ hx),
          List.Pairwise.of_cons hinv.2⟩
      rcases List.mem_cons.mp hob with rfl | hob2
      · have hlmem : l ∈ t := List.mem_of_mem_getLast? hl2
        exact List.rel_of_sorted_cons hinv.2 l hlmem
      · exact ih hinv2 hl2 ob hob2

theorem rolloverDebtObs_invariant (periodEnd : Ymd) (debt : Debt)
    (obs : List Obligation) (hinv : ObsInvariant obs) :
    ObsInvariant (rolloverDebtObs periodEnd debt obs) := by
  unfold rolloverDebtObs
  cases hl : obs.getLast? with
  | none => exact hinv
  | some lastOb =>
    refine rolloverAux_invariant periodEnd debt 240 obs lastOb hinv
      (sorted_le_getLast hinv hl) ?_
    exact (hinv.1 lastOb (List.mem_of_mem_getLast? hl)).2.2

theorem obsWeaker_invariant {obs obs2 : List Obligation}
    (hinv : ObsInvariant obs) (hw : ObsWeaker obs2 obs) :
    ObsInvariant obs2 := by
  constructor
  · intro ob2 hob2
    obtain ⟨j, hj, he⟩ := List.getElem_of_mem hob2
    have h2 : obs2[j]? = some ob2 := by
      rw [List.getElem?_eq_getElem hj, he]
    have hjlen : j < obs.length := by rw [← hw.1]; exact hj
    obtain ⟨e1, e2, e3, e4, e5⟩ := hw.2 j _ _
      (List.getElem?_eq_getElem hjlen) h2
    have hob := hinv.1 _ (List.getElem_mem hjlen)
    refine ⟨e5 hob.1, ?_, ?_⟩
    · calc ob2.amountRemaining ≤ _ := e4
        _ ≤ _ := hob.2.1
        _ = ob2.monthlyMin := e2.symm
    · rw [e1]
      exact hob.2.2
  · rw [List.pairwise_iff_getElem]
    intro i j hi hj hij
    have hi2 : i < obs.length := by rw [← hw.1]; exact hi
    have hj2 : j < obs.length := by rw [← hw.1]; exact hj
    obtain ⟨e1i, -, -, -, -⟩ := hw.2 i _ _
      (List.getElem?_eq_getElem hi2) (List.getElem?_eq_getElem hi)
    obtain ⟨e1j, -, -, -, -⟩ := hw.2 j _ _
      (List.getElem?_eq_getElem hj2) (List.getElem?_eq_getElem hj)
    have hp := List.pairwise_iff_getElem.mp hinv.2 i j hi2 hj2 hij
    rw [e1i, e1j]
    exact hp

theorem lookupObs_updateObs_isSome (m : ObsMap) (id : Nat)
    (v : List Obligation) (id2 : Nat) :
    (lookupObs (updateObs m id v) id2).isSome = (lookupObs m id2).isSome := by
  by_cases h : id2 = id
  · subst h
    cases hl : lookupObs m id2 with
    | none => rw [updateObs_of_lookup_none hl, hl]
    | some obs => rw [lookupObs_updateObs_self hl]; rfl
  · rw [lookupObs_updateObs_ne h]

theorem settleStep_lookup_isSome
    (st : List Debt × ObsMap × ℚ × List (Nat × ℚ)) (cand : MinCandidate)
    (id : Nat) : (lookupObs (settleStep st cand).2.1 id).isSome =
      (lookupObs st.2.1 id).isSome := by
  unfold settleStep
  cases hd : st.1.get? cand.idx with
  | none => rfl
  | some debt => exact lookupObs_updateObs_isSome _ _ _ _

theorem settleFold_lookup_isSome (cands : List MinCandidate) :
    ∀ st (id : Nat),
      (lookupObs (cands.foldl settleStep st).2.1 id).isSome =
        (lookupObs st.2.1 id).isSome := by
  induction cands with
  | nil => intro st id; rfl
  | cons c cs ih =>
    intro st id
    simp only [List.foldl_cons]
    rw [ih (settleStep st c) id, settleStep_lookup_isSome]

theorem settleMins_invariant (debts : List Debt) (m : ObsMap) (cash : ℚ)
    (hm : ∀ e ∈ m, ObsInvariant e.2) :
    ∀ (id : Nat) (obs2 : List Obligation),
      lookupObs (settleMins debts m cash).2.1 id = some obs2 →
      ObsInvariant obs2 := by
  intro id obs2 h2
  have hsome : (lookupObs m id).isSome := by
    have he := settleFold_lookup_isSome (settleOrder debts m)
      (debts, m, cash, []) id
    unfold settleMins at h2
    rw [h2] at he
    exact he.symm
  obtain ⟨obs, hobs⟩ := Option.isSome_iff_exists.mp hsome
  obtain ⟨obs2b, h2b, hw⟩ := settleMins_mapWeaker debts m cash id obs hobs
  rw [h2] at h2b
  obtain rfl : obs2 = obs2b := by injection h2b
  have hinm : ObsInvariant obs := by
    unfold lookupObs at hobs
    obtain ⟨p, hfind, hsnd⟩ := Option.map_eq_some'.mp hobs
    have hpm := List.mem_of_find?_eq_some hfind
    rw [← hsnd]
    exact hm p hpm
  exact obsWeaker_invariant hinm hw

/-- C8: queue invariants: seeding establishes, and rollover and the
minimum-payment settlement preserve, the invariant that every
obligation keeps `0 ≤ amountRemaining ≤ monthlyMin` (with a normalized
due date) and that every queue is sorted by due date ascending. -/
theorem c8_obligation_invariants :
    (∀ (start : Ymd) (debts : List Debt), ValidYmd start →
      ∀ e ∈ seedObligations start debts, ObsInvariant e.2) ∧
    (∀ (periodEnd : Ymd) (debt : Debt) (obs : List Obligation),
      ObsInvariant obs → ObsInvariant (rolloverDebtObs periodEnd debt obs)) ∧
    (∀ (debts : List Debt) (m : ObsMap) (cash : ℚ),
      (∀ e ∈ m, ObsInvariant e.2) →
      ∀ (id : Nat) (obs2 : List Obligation),
        lookupObs (settleMins debts m cash).2.1 id = some obs2 →
        ObsInvariant obs2) :=
  ⟨fun start debts h => seedObligations_invariant start debts h,
    fun pe debt obs h => rolloverDebtObs_invariant pe debt obs h,
    fun debts m cash hm => settleMins_invariant debts m cash hm⟩

/-- Witness for C8: the rollover-preservation clause at a concrete
queue. -/
theorem c8_obligation_invariants_witness :
    ObsInvariant (rolloverDebtObs ⟨2025, 2, 15⟩ ce2Debt
      [⟨⟨2025, 1, 28⟩, 5, 5, 5⟩]) :=
  c8_obligation_invariants.2.1 ⟨2025, 2, 15⟩ ce2Debt
    [⟨⟨2025, 1, 28⟩, 5, 5, 5⟩] (by with_unfolding_all decide)

/-! ## The rollover loop -/

theorem rolloverAux_succ (pe : Ymd) (debt : Debt) (f : Nat)
    (obs : List Obligation) (lastOb : Obligation) :
    rolloverAux pe debt (f + 1) obs lastOb =
      if lastOb.dueDate.key < pe.key ∧ obs.length < 240 ∧
          1/2 < debt.balance then
        rolloverAux pe debt f (obs ++ [nextObligation debt lastOb])
          (nextObligation debt lastOb)
      else obs := rfl

theorem rolloverAux_spec (pe : Ymd) (debt : Debt) : ∀ (fuel : Nat)
    (obs : List Obligation) (lastOb : Obligation),
    ∃ tail, rolloverAux pe debt fuel obs lastOb = obs ++ tail ∧
      List.Chain (fun a b => b = nextObligation debt a) lastOb tail ∧
      (tail ≠ [] → (lastOb.dueDate.key < pe.key ∧ obs.length < 240 ∧
        1/2 < debt.balance)) := by
  intro fuel
  induction fuel with
  | zero =>
    intro obs lastOb
    exact ⟨[], by simp [rolloverAux], List.Chain.nil, by simp⟩
  | succ f ih =>
    intro obs lastOb
    rw [rolloverAux_succ]
    split_ifs with hcond
    · obtain ⟨tail, he, hchain, -⟩ :=
        ih (obs ++ [nextObligation debt lastOb]) (nextObligation debt lastOb)
      refine ⟨nextObligation debt lastOb :: tail, ?_, ?_, fun _ => hcond⟩
      · rw [he]; simp
      · exact List.Chain.cons rfl hchain
    · exact ⟨[], by simp, List.Chain.nil, by simp⟩

theorem chain_next_mem {debt : Debt} {lastOb : Obligation}
    {tail : List Obligation}
    (h : List.Chain (fun a b => b = nextObligation debt a) lastOb tail) :
    ∀ ob ∈ tail, ∃ a, ob = nextObligation debt a := by
  induction tail generalizing lastOb with
  | nil => intro ob hob; simp at hob
  | cons b t ih =>
    intro ob hob
    rcases h with - | ⟨hb, ht⟩
    rcases List.mem_cons.mp hob with rfl | hob2
    · exact ⟨lastOb, by assumption⟩
    · exact ih ht ob hob2

theorem nextObligation_fields (debt : Debt) (a : Obligation) :
    (nextObligation debt a).amountRemaining =
      (nextObligation debt a).monthlyMin ∧
    (nextObligation debt a).monthlyMin = bindingMonthlyMin debt.monthlyMin
      (computeBanxicoMonthlyComponents debt.balance debt.rate
        debt.creditLimit).baseMin ∧
    (nextObligation debt a).dueDate.day = min (getDueDayOrDefault debt)
      (daysInMonth (nextObligation debt a).dueDate.year
        (nextObligation debt a).dueDate.month) :=
  ⟨rfl, rfl, rfl⟩

theorem rolloverAux_length (pe : Ymd) (debt : Debt) : ∀ (fuel : Nat)
    (obs : List Obligation) (lastOb : Obligation),
    (rolloverAux pe debt fuel obs lastOb).length ≤ max obs.length 240 := by
  intro fuel
  induction fuel with
  | zero => intro obs lastOb; simp [rolloverAux]
  | succ f ih =>
    intro obs lastOb
    rw [rolloverAux_succ]
    split_ifs with hcond
    · have := ih (obs ++ [nextObligation debt lastOb])
        (nextObligation debt lastOb)
      have hlen : (obs ++ [nextObligation debt lastOb]).length =
          obs.length + 1 := by simp
      omega
    · exact le_max_left _ _

theorem rolloverAux_post (pe : Ymd) (debt : Debt) : ∀ (fuel : Nat)
    (obs : List Obligation) (lastOb : Obligation),
    obs.getLast? = some lastOb → 241 ≤ fuel + obs.length →
    ∃ l2, (rolloverAux pe debt fuel obs lastOb).getLast? = some l2 ∧
      ¬(l2.dueDate.key < pe.key ∧
        (rolloverAux pe debt fuel obs lastOb).length < 240 ∧
        1/2 < debt.balance) := by
  intro fuel
  induction fuel with
  | zero =>
    intro obs lastOb hlast hfuel
    refine ⟨lastOb, by simpa [rolloverAux] using hlast, ?_⟩
    rintro ⟨-, hlt, -⟩
    simp only [rolloverAux] at hlt
    omega
  | succ f ih =>
    intro obs lastOb hlast hfuel
    rw [rolloverAux_succ]
    split_ifs with hcond
    · refine ih (obs ++ [nextObligation debt lastOb])
        (nextObligation debt lastOb) (by simp) ?_
      have : (obs ++ [nextObligation debt lastOb]).length =
          obs.length + 1 := by simp
      omega
    · exact ⟨lastOb, hlast, hcond⟩

/-- C2 (amended): the rollover appends nothing when the debt's balance
is at or below the 0.5 epsilon or the queue is empty; otherwise the
queue gains a (possibly empty) tail in which each new obligation is
derived from its predecessor by `nextObligation`: its `monthlyMin` and
`amountRemaining` both equal the binding minimum recomputed from the
debt's current balance, and its due date falls on the debt's due day
clamped to its own month (not on the previous due date's day-of-month);
a nonempty tail is only created when the period end is strictly past
the latest due date, the queue holds fewer than 240 entries and the
balance is above the epsilon; the queue never grows past 240, and the
loop stops only once the latest due date reaches the period end, the
cap is hit, or the balance is at or below the epsilon. -/
theorem c2_rollover_amended (periodEnd : Ymd) (debt : Debt)
    (obs : List Obligation) :
    (debt.balance ≤ 1/2 → rolloverDebtObs periodEnd debt obs = obs) ∧
    (obs = [] → rolloverDebtObs periodEnd debt obs = obs) ∧
    (∀ lastOb, obs.getLast? = some lastOb →
      ∃ tail, rolloverDebtObs periodEnd debt obs = obs ++ tail ∧
        List.Chain (fun a b => b = nextObligation debt a) lastOb tail ∧
        (tail ≠ [] → lastOb.dueDate.key < periodEnd.key ∧
          obs.length < 240 ∧ 1/2 < debt.balance) ∧
        (∀ ob ∈ tail, ob.amountRemaining = ob.monthlyMin ∧
          ob.monthlyMin = bindingMonthlyMin debt.monthlyMin
            (computeBanxicoMonthlyComponents debt.balance debt.rate
              debt.creditLimit).baseMin ∧
          ob.dueDate.day = min (getDueDayOrDefault debt)
            (daysInMonth ob.dueDate.year ob.dueDate.month))) ∧
    (rolloverDebtObs periodEnd debt obs).length ≤ max obs.length 240 ∧
    (∀ lastOb, obs.getLast? = some lastOb →
      ∃ l2, (rolloverDebtObs periodEnd debt obs).getLast? = some l2 ∧
        ¬(l2.dueDate.key < periodEnd.key ∧
          (rolloverDebtObs periodEnd debt obs).length < 240 ∧
          1/2 < debt.balance)) := by
  refine ⟨?_, ?_, ?_, ?_, ?_⟩
  · intro hb
    unfold rolloverDebtObs
    cases hl : obs.getLast? with
    | none => rfl
    | some lastOb =>
      dsimp only
      rw [show (240 : Nat) = 239 + 1 from rfl, rolloverAux_succ]
      rw [if_neg]
      rintro ⟨-, -, h⟩
      linarith
  · intro h
    unfold rolloverDebtObs
    rw [h]
    rfl
  · intro lastOb hlast
    unfold rolloverDebtObs
    rw [hlast]
    obtain ⟨tail, he, hchain, hcond⟩ := rolloverAux_spec periodEnd debt 240
      obs lastOb
    refine ⟨tail, he, hchain, hcond, ?_⟩
    intro ob hob
    obtain ⟨a, rfl⟩ := chain_next_mem hchain ob hob
    exact nextObligation_fields debt a
  · unfold rolloverDebtObs
    cases hl : obs.getLast? with
    | none => exact le_max_left _ _
    | some lastOb => exact rolloverAux_length periodEnd debt 240 obs lastOb
  · intro lastOb hlast
    unfold rolloverDebtObs
    rw [hlast]
    refine rolloverAux_post periodEnd debt 240 obs lastOb hlast ?_
    have : obs ≠ [] := by
      intro h
      rw [h] at hlast
      simp at hlast
    have : 1 ≤ obs.length := List.length_pos.mpr this
    omega

set_option maxRecDepth 3000 in
/-- Counterexample to C2 as stated: for a debt with due day 31, the
obligation following one due February 28, 2025 is created on
March 31 (the debt's due day clamped to March), not on March 28 (one
calendar month after the previous due date with its day-of-month
clamped), refuting the claim's due-date rule. -/
theorem c2_due_day_counterexample :
    rolloverDebtObs ⟨2025, 2, 15⟩ ce2Debt [⟨⟨2025, 1, 28⟩, 5, 5, 5⟩] =
      [⟨⟨2025, 1, 28⟩, 5, 5, 5⟩, ⟨⟨2025, 2, 31⟩, 74/3, 74/3, 74/3⟩] ∧
    specNextDueDate ⟨2025, 1, 28⟩ = ⟨2025, 2, 28⟩ ∧
    (⟨2025, 2, 31⟩ : Ymd) ≠ ⟨2025, 2, 28⟩ := by
  with_unfolding_all decide

/-- Witness for C2 (amended) at a concrete cleared debt. -/
theorem c2_rollover_amended_witness :
    rolloverDebtObs ⟨2025, 2, 15⟩ ⟨1, 0, 30, none, 0, some 25⟩
      [⟨⟨2025, 0, 25⟩, 1, 1, 1⟩] = [⟨⟨2025, 0, 25⟩, 1, 1, 1⟩] :=
  (c2_rollover_amended ⟨2025, 2, 15⟩ ⟨1, 0, 30, none, 0, some 25⟩
    [⟨⟨2025, 0, 25⟩, 1, 1, 1⟩]).1 (by norm_num)

set_option maxRecDepth 3000 in
/-- Counterexample to C5 as stated: the first period of the `ce5Input`
run ends with cash remaining −200 (an expense event exceeds the
period's income), yet the carry-over handed on is 0, not the −200
remainder the claim asserts. -/
theorem c5_pocket_counterexample :
    ((stepPeriod ce5Input (initState ce5Input)).results.head?.map
      PeriodRow.pocket) = some 0 ∧
    ((stepPeriod ce5Input (initState ce5Input)).results.head?.map
      rowRemainingCash) = some (-200) ∧
    (stepPeriod ce5Input (initState ce5Input)).carryOver = 0 ∧
    (0 : ℚ) ≠ -200 := by
  with_unfolding_all decide

theorem simLoop_succ_eq (input : SimInput) (n : Nat) (st : SimState) :
    simLoop input (n + 1) st =
      if 5 < st.debtRemaining ∨ 5 < st.goalRemaining then
        simLoop input n (stepPeriod input st)
      else st := rfl

theorem simState_ext (a b : SimState)
    (h1 : a.debts = b.debts) (h2 : a.goals = b.goals)
    (h3 : a.minObligations = b.minObligations)
    (h4 : a.currentDate = b.currentDate)
    (h5 : a.prevPeriodEnd = b.prevPeriodEnd)
    (h6 : a.iteration = b.iteration)
    (h7 : a.totalInterestPaid = b.totalInterestPaid)
    (h8 : a.debtRemaining = b.debtRemaining)
    (h9 : a.goalRemaining = b.goalRemaining)
    (h10 : a.carryOver = b.carryOver)
    (h11 : a.debtFreedomIndex = b.debtFreedomIndex)
    (h12 : a.results = b.results) : a = b := by
  cases a; cases b; simp_all

set_option maxRecDepth 3000 in
theorem ce9_step1_eq : stepPeriod ce9Input (initState ce9Input) = ce9State1 :=
  simState_ext _ _ (by with_unfolding_all decide)
    (by with_unfolding_all decide) (by with_unfolding_all decide)
    (by with_unfolding_all decide) (by with_unfolding_all decide)
    (by with_unfolding_all decide)
    (by
      rw [stepPeriod_totalInterestPaid]
      norm_num [initState, ce9Input, ce9State1, accrueAll, accrueDebt])
    (by with_unfolding_all decide) (by with_unfolding_all decide)
    (by with_unfolding_all decide) (by with_unfolding_all decide)
    (by with_unfolding_all decide)

set_option maxRecDepth 3000 in
theorem ce9_step2_eq : stepPeriod ce9Input ce9State1 = ce9State2 :=
  simState_ext _ _ (by with_unfolding_all decide)
    (by with_unfolding_all decide) (by with_unfolding_all decide)
    (by with_unfolding_all decide) (by with_unfolding_all decide)
    (by with_unfolding_all decide)
    (by
      rw [stepPeriod_totalInterestPaid]
      norm_num [ce9State1, ce9State2, accrueAll, accrueDebt])
    (by with_unfolding_all decide) (by with_unfolding_all decide)
    (by with_unfolding_all decide) (by with_unfolding_all decide)
    (by with_unfolding_all decide)

set_option maxRecDepth 3000 in
theorem ce9_run_eq : runSimulation ce9Input = ce9State2 := by
  have g0 : 5 < (initState ce9Input).debtRemaining ∨
      5 < (initState ce9Input).goalRemaining := by
    with_unfolding_all decide
  have g1 : 5 < ce9State1.debtRemaining ∨ 5 < ce9State1.goalRemaining := by
    with_unfolding_all decide
  have g2 : ¬(5 < ce9State2.debtRemaining ∨ 5 < ce9State2.goalRemaining) := by
    with_unfolding_all decide
  show simLoop ce9Input 120 (initState ce9Input) = ce9State2
  rw [show (120 : Nat) = 119 + 1 from rfl, simLoop_succ_eq, if_pos g0,
    ce9_step1_eq,
    show (119 : Nat) = 118 + 1 from rfl, simLoop_succ_eq, if_pos g1,
    ce9_step2_eq,
    show (118 : Nat) = 117 + 1 from rfl, simLoop_succ_eq, if_neg g2]

set_option maxRecDepth 3000 in
/-- Counterexample to C9 as stated: in the completed two-period
`ce9Input` run no payment of any kind is ever made toward a debt (the
accrued balance is discarded by the cleanup), so the interest and
surcharge actually paid is 0, yet the engine reports a positive total
of 29/2500. -/
theorem c9_accrued_not_paid_counterexample :
    totalDebtPayments (runSimulation ce9Input) = 0 ∧
    (runSimulation ce9Input).totalInterestPaid = 29/2500 ∧
    (0 : ℚ) < 29/2500 := by
  rw [ce9_run_eq]
  refine ⟨by norm_num [totalDebtPayments, ce9State2],
    by norm_num [ce9State2], by norm_num⟩

/-- Counterexample to C7 as stated: with pool 2.7 and active balances
2 and 5 under snowball, the first debt is paid in full (2), the
remainder 0.7 is at or below 1, so the loop stops and the second debt
receives nothing — not `min(remaining cash, balance) = 0.7` as the
claim's payment rule would have it. -/
theorem c7_payment_rule_counterexample :
    (applyStrategy "snowball" (27/10) [ce7DebtA, ce7DebtB]).2.2 =
      [(0, 2)] ∧
    (applyStrategy "snowball" (27/10) [ce7DebtA, ce7DebtB]).1[1]? =
      some ce7DebtB ∧
    ce7DebtB.balance = 5 ∧
    min ((27/10 : ℚ) - 2) ce7DebtB.balance = 7/10 ∧ (7/10 : ℚ) ≠ 0 := by
  with_unfolding_all decide

/-- Witness for C7 at a concrete pool of 1/2 (at or below the gate). -/
theorem c7_strategy_amended_witness :
    applyStrategy "snowball" (1/2) [ce7DebtA] = ([ce7DebtA], 1/2, []) :=
  (c7_strategy_amended "snowball" (1/2) [ce7DebtA]).2.2.2.2.2.2.2.1
    (by norm_num)

/-- C10: the carry-over pocket starts at 0 and is never negative: a
period whose remaining cash is negative hands on exactly 0, and one
whose remaining cash is nonnegative hands it on in full. -/
theorem c10_pocket_nonneg (input : SimInput) (st : SimState) :
    (initState input).carryOver = 0 ∧
    0 ≤ (stepPeriod input st).carryOver ∧
    ∃ row : PeriodRow,
      (stepPeriod input st).results = st.results ++ [row] ∧
      (rowRemainingCash row < 0 → (stepPeriod input st).carryOver = 0) ∧
      (0 ≤ rowRemainingCash row →
        (stepPeriod input st).carryOver = rowRemainingCash row) := by
  obtain ⟨row, hres, hc, hp⟩ := stepPeriod_pocket_eq input st
  refine ⟨rfl, ?_, row, hres, ?_, ?_⟩
  · rw [hc, hp]; exact le_max_left _ _
  · intro hx
    rw [hc, hp]
    exact max_eq_left (le_of_lt hx)
  · intro hx
    rw [hc, hp]
    exact max_eq_right hx


/-! ## Event-window lemmas (claim C4) -/

theorem gatherEvents_aux (s : Ymd) (p : Option Ymd) (e : Ymd) :
    ∀ (l : List CashEvent) (n : Nat) (bi be : ℚ) (log : List Nat),
      (List.enumFrom n l).foldl
        (fun acc q =>
          if eventIncluded s p e q.2 then
            if q.2.isIncome then (acc.1 + q.2.amount, acc.2.1, acc.2.2 ++ [q.1])
            else (acc.1, acc.2.1 + q.2.amount, acc.2.2 ++ [q.1])
          else acc)
        (bi, be, log) =
      (bi + ((l.filter (fun ev => eventIncluded s p e ev && ev.isIncome)).map
        CashEvent.amount).sum,
       be + ((l.filter (fun ev => eventIncluded s p e ev && !ev.isIncome)).map
        CashEvent.amount).sum,
       log ++ ((List.enumFrom n l).filter
        (fun q => eventIncluded s p e q.2)).map Prod.fst) := by
  intro l
  induction l with
  | nil => intro n bi be log; simp
  | cons ev tl ih =>
    intro n bi be log
    rw [List.enumFrom_cons, List.foldl_cons]
    by_cases hin : eventIncluded s p e ev
    · by_cases hisi : ev.isIncome
      · rw [if_pos hin, if_pos hisi, ih]
        simp [List.filter_cons, hin, hisi, add_assoc]
      · rw [if_pos hin, if_neg hisi, ih]
        have hisi2 : ev.isIncome = false := Bool.eq_false_iff.mpr hisi
        simp [List.filter_cons, hin, hisi2, add_assoc]
    · rw [if_neg hin, ih]
      have h0 : eventIncluded s p e ev = false := Bool.eq_false_iff.mpr hin
      simp [List.filter_cons, h0]

theorem gatherEvents_spec (s : Ymd) (p : Option Ymd) (e : Ymd)
    (events : List CashEvent) (bi be : ℚ) :
    gatherEvents s p e events bi be =
      (bi + specEventIncome s p e events,
       be + specEventExpense s p e events,
       specIncludedIdx s p e events) := by
  unfold gatherEvents specEventIncome specEventExpense specIncludedIdx
  rw [show events.enum = List.enumFrom 0 events from rfl,
    gatherEvents_aux s p e events 0 bi be []]
  simp

theorem mem_specIncludedIdx (s : Ymd) (p : Option Ymd) (e : Ymd)
    (events : List CashEvent) (i : Nat)
    (h : i ∈ specIncludedIdx s p e events) :
    ∃ ev, events[i]? = some ev ∧ eventIncluded s p e ev = true := by
  unfold specIncludedIdx at h
  obtain ⟨q, hq, rfl⟩ := List.mem_map.mp h
  obtain ⟨hqmem, hqinc⟩ := List.mem_filter.mp hq
  refine ⟨q.2, ?_, hqinc⟩
  have := List.mem_enum_iff_getElem?.mp hqmem
  simpa using this

theorem eventIncluded_ub (s : Ymd) (p : Option Ymd) (e : Ymd)
    (ev : CashEvent) (h : eventIncluded s p e ev = true) :
    ev.date.key ≤ e.key := by
  unfold eventIncluded at h
  cases p with
  | none => simp only [Bool.and_eq_true, decide_eq_true_eq] at h; exact h.2
  | some q => simp only [Bool.and_eq_true, decide_eq_true_eq] at h; exact h.2

theorem eventIncluded_lb (s : Ymd) (q : Ymd) (e : Ymd)
    (ev : CashEvent) (h : eventIncluded s (some q) e ev = true) :
    q.key < ev.date.key := by
  unfold eventIncluded at h
  simp only [Bool.and_eq_true, decide_eq_true_eq] at h
  exact h.1

theorem daysInMonth_ge (y m : Nat) : 28 ≤ daysInMonth y m := by
  unfold daysInMonth
  rcases m with - | - | - | - | - | - | - | - | - | - | - | m <;>
    simp <;> split_ifs <;> omega

theorem advanceDate_valid (d : Ymd) (h : ValidYmd d) :
    ValidYmd (advanceDate d) := by
  obtain ⟨hm, hd1, hd31⟩ := h
  unfold advanceDate
  split_ifs with h1 h2
  · exact ⟨hm, le_trans (by norm_num) (daysInMonth_ge d.year d.month),
      (daysInMonth_bounds d.year d.month).2⟩
  · exact ⟨by norm_num, by norm_num, by norm_num⟩
  · exact ⟨by show d.month + 1 ≤ 11; omega, by norm_num, by norm_num⟩

theorem advanceDate_key_lt (d : Ymd) (h : ValidYmd d) :
    d.key < (advanceDate d).key := by
  obtain ⟨hm, hd1, hd31⟩ := h
  have hge := daysInMonth_ge d.year d.month
  unfold advanceDate
  split_ifs with h1 h2 <;> simp only [Ymd.key] <;> omega

theorem stepPeriod_events (input : SimInput) (st : SimState) :
    ∃ row : PeriodRow,
      (stepPeriod input st).results = st.results ++ [row] ∧
      row.periodEnd = st.currentDate ∧
      row.includedEvents =
        specIncludedIdx input.startDate st.prevPeriodEnd st.currentDate
          input.events ∧
      row.income = (input.grossIncome - input.deductions.sum) +
        specEventIncome input.startDate st.prevPeriodEnd st.currentDate
          input.events ∧
      row.expenses = (input.fixedExpenses.sum + input.discretionary) +
        specEventExpense input.startDate st.prevPeriodEnd st.currentDate
          input.events ∧
      (stepPeriod input st).prevPeriodEnd = some st.currentDate ∧
      (stepPeriod input st).currentDate = advanceDate st.currentDate := by
  obtain ⟨row, hres, hpe, hinc, hexp, hie, -, -, hprev, hcur, -⟩ :=
    stepPeriod_row input st
  refine ⟨row, hres, hpe, ?_, ?_, ?_, hprev, hcur⟩
  · rw [hie, gatherEvents_spec]
  · rw [hinc, gatherEvents_spec]
  · rw [hexp, gatherEvents_spec]

theorem simLoop_disjoint (input : SimInput) (fuel : Nat) :
    ∀ st : SimState,
      ValidYmd st.currentDate →
      (∀ q, st.prevPeriodEnd = some q → q.key ≤ st.currentDate.key ∧
        ∀ r ∈ st.results, ∀ i ∈ r.includedEvents,
          ∃ ev, input.events[i]? = some ev ∧ ev.date.key ≤ q.key) →
      (st.prevPeriodEnd = none → st.results = []) →
      List.Pairwise
        (fun r1 r2 => ∀ i, i ∈ r1.includedEvents → i ∉ r2.includedEvents)
        st.results →
      List.Pairwise
        (fun r1 r2 => ∀ i, i ∈ r1.includedEvents → i ∉ r2.includedEvents)
        (simLoop input fuel st).results := by
  induction fuel with
  | zero => intro st _ _ _ hpair; exact hpair
  | succ n ih =>
    intro st hvalid hsome hnone hpair
    unfold simLoop
    by_cases hg : 5 < st.debtRemaining ∨ 5 < st.goalRemaining
    · rw [if_pos hg]
      obtain ⟨row, hres, hpe, hie, -, -, hprev, hcur⟩ :=
        stepPeriod_events input st
      -- every event included so far (the new row included) has date ≤
      -- the new previous period end, the old current date
      have hclosed : ∀ r ∈ st.results ++ [row], ∀ i ∈ r.includedEvents,
          ∃ ev, input.events[i]? = some ev ∧
            ev.date.key ≤ st.currentDate.key := by
        intro r hr i hi
        rcases List.mem_append.mp hr with hr | hr
        · cases hq : st.prevPeriodEnd with
          | none => rw [hnone hq] at hr; cases hr
          | some q =>
            obtain ⟨hqle, hall⟩ := hsome q hq
            obtain ⟨ev, hev, hle⟩ := hall r hr i hi
            exact ⟨ev, hev, le_trans hle hqle⟩
        · obtain rfl : r = row := by
            cases List.mem_singleton.mp hr; rfl
          rw [hie] at hi
          obtain ⟨ev, hev, hinc⟩ := mem_specIncludedIdx _ _ _ _ _ hi
          exact ⟨ev, hev, eventIncluded_ub _ _ _ _ hinc⟩
      apply ih
      · rw [hcur]; exact advanceDate_valid st.currentDate hvalid
      · intro q hq
        rw [hprev] at hq
        obtain rfl : st.currentDate = q := by injection hq
        constructor
        · rw [hcur]
          exact le_of_lt (advanceDate_key_lt st.currentDate hvalid)
        · rw [hres]; exact hclosed
      · intro hq; rw [hprev] at hq; cases hq
      · rw [hres]
        rw [List.pairwise_append]
        refine ⟨hpair, List.pairwise_singleton _ _, ?_⟩
        intro r hr r2 hr2 i hiR hiRow
        obtain rfl : r2 = row := by
          cases List.mem_singleton.mp hr2; rfl
        -- the same index in an old row and the new row is impossible:
        -- old dates are at or before prevPeriodEnd, new ones after it
        cases hq : st.prevPeriodEnd with
        | none =>
          rw [hnone hq] at hr; cases hr
        | some q =>
          obtain ⟨-, hall⟩ := hsome q hq
          obtain ⟨ev, hev, hle⟩ := hall r hr i hiR
          rw [hie, hq] at hiRow
          obtain ⟨ev2, hev2, hinc⟩ := mem_specIncludedIdx _ _ _ _ _ hiRow
          obtain rfl : ev = ev2 := by
            rw [hev] at hev2; injection hev2
          exact absurd (eventIncluded_lb _ _ _ _ hinc) (not_lt.mpr hle)
    · rw [if_neg hg]; exact hpair

/-- C4 (amended): each cash event is counted in at most one period:
a period's window has exclusive lower bound the previous period's end
(inclusive lower bound the start date for the first) and inclusive
upper bound its own end, the windows chain (a period's end is the next
period's lower bound) so no event is double-counted — but an event
dated past the last simulated period's end lands in no period; within
a period, the included events are exactly those the window contains,
income-type amounts are added to the period's income and expense-type
amounts to its expenses. -/
theorem c4_event_inclusion_amended (input : SimInput)
    (h : ValidYmd input.startDate) :
    List.Pairwise
      (fun r1 r2 => ∀ i, i ∈ r1.includedEvents → i ∉ r2.includedEvents)
      (runSimulation input).results ∧
    (∀ st : SimState, ∃ row : PeriodRow,
      (stepPeriod input st).results = st.results ++ [row] ∧
      row.periodEnd = st.currentDate ∧
      row.includedEvents =
        specIncludedIdx input.startDate st.prevPeriodEnd st.currentDate
          input.events ∧
      row.income = (input.grossIncome - input.deductions.sum) +
        specEventIncome input.startDate st.prevPeriodEnd st.currentDate
          input.events ∧
      row.expenses = (input.fixedExpenses.sum + input.discretionary) +
        specEventExpense input.startDate st.prevPeriodEnd st.currentDate
          input.events ∧
      (stepPeriod input st).prevPeriodEnd = some st.currentDate) := by
  constructor
  · apply simLoop_disjoint input 120 (initState input)
    · exact h
    · intro q hq; cases hq
    · intro _; rfl
    · exact List.Pairwise.nil
  · intro st
    obtain ⟨row, h1, h2, h3, h4, h5, h6, -⟩ := stepPeriod_events input st
    exact ⟨row, h1, h2, h3, h4, h5, h6⟩

set_option maxRecDepth 3000 in
/-- Counterexample to C4 as stated: `ce4Input` carries one income
event dated February 20, 2025, but its run finishes after a single
period ending January 10, 2025, so the event is included in no period
at all — the lone row logs no event and its income is the bare 1000,
not 1050. -/
theorem c4_event_dropped_counterexample :
    ce4Input.events = [⟨⟨2025, 1, 20⟩, 50, true⟩] ∧
    (runSimulation ce4Input).results.map PeriodRow.includedEvents = [[]] ∧
    (runSimulation ce4Input).results.map PeriodRow.income = [1000] := by
  with_unfolding_all decide

/-- Witness for C4 (amended) at the concrete input `ce4Input`. -/
theorem c4_event_inclusion_amended_witness :
    ValidYmd ce4Input.startDate ∧
    (List.Pairwise
      (fun r1 r2 => ∀ i, i ∈ r1.includedEvents → i ∉ r2.includedEvents)
      (runSimulation ce4Input).results ∧
    (∀ st : SimState, ∃ row : PeriodRow,
      (stepPeriod ce4Input st).results = st.results ++ [row] ∧
      row.periodEnd = st.currentDate ∧
      row.includedEvents =
        specIncludedIdx ce4Input.startDate st.prevPeriodEnd st.currentDate
          ce4Input.events ∧
      row.income = (ce4Input.grossIncome - ce4Input.deductions.sum) +
        specEventIncome ce4Input.startDate st.prevPeriodEnd st.currentDate
          ce4Input.events ∧
      row.expenses = (ce4Input.fixedExpenses.sum + ce4Input.discretionary) +
        specEventExpense ce4Input.startDate st.prevPeriodEnd st.currentDate
          ce4Input.events ∧
      (stepPeriod ce4Input st).prevPeriodEnd = some st.currentDate)) :=
  ⟨by with_unfolding_all decide, c4_event_inclusion_amended ce4Input
    (by with_unfolding_all decide)⟩

end DebtPlanner
